import Mathlib

/-! OComputer: a shallow embedding of `computer.h` / `ooasm.h`.

The C++ sources define a small virtual machine (`Computer`) made of a
`Processor` (two flags), a `Memory` (a vector of `int64_t` cells and a
label table `std::map<Id, int64_t>`) and a hierarchy of executable nodes
(`Num`, `Lea`, `Mem`, `Mov`, `Data`, `ArithmeticOperation`, `Onez`, `Ones`).

Conventions of the embedding:

* `int64_t` values are `Int`; an operation whose C++ result is an `int64_t`
  applies `wrap64` (two's-complement reduction). `uint64_t` / `size_t` values
  are `Nat`; a conversion `int64_t → uint64_t` is `toU64`.
* a C++ exception is a value of `Error`; a function that throws before it
  mutates anything returns `Except Error _`; `execute` of an instruction and
  `boot` return an `Outcome` holding the exception that escaped (if any)
  together with the machine as it was left behind.
* the back-pointer installed by `set_computer` is replaced by passing the
  machine explicitly; the cached `value` / `address` fields of a node are the
  results returned by `execute`.
* `std::map<Id, int64_t>` is an association list in insertion order, whose keys
  are kept distinct by `define_data`; `find` is `List.lookup`, `size` is
  `List.length`. The table is only ever written with a `size_t` and read as a
  `uint64_t` (`operator[](const Id &)`), and `uint64_t → int64_t → uint64_t` is
  the identity, so an entry holds the `uint64_t` view of the stored value.
-/

namespace Computer

/-- The exceptions thrown by `computer.h`, named as in the specification. -/
inductive Error where
  /-- Thrown as `std::invalid_argument("Invalid identifier")`. -/
  | InvalidIdentifier
  /-- Thrown as `std::invalid_argument("Undefined identifier")`. -/
  | UndefinedLabel
  /-- Thrown as `std::out_of_range("Invalid memory address")`. -/
  | OutOfRange
  /-- Thrown as `std::out_of_range("Memory size exceeded")`. -/
  | CapacityExceeded
  deriving DecidableEq, Repr

/-- Reduction of an integer to `int64_t` by two's-complement wraparound. -/
def wrap64 (x : Int) : Int := (x + 2 ^ 63) % 2 ^ 64 - 2 ^ 63

/-- Conversion of an `int64_t` to `uint64_t`. -/
def toU64 (x : Int) : Nat := (x % 2 ^ 64).toNat

/-- Class `Id`: the wrapped string (the length check lives in `Id.new`). -/
structure Id where
  id : String
  deriving DecidableEq, Repr

/-- Bounds of `Id`: `min_id_len`. -/
def Id.min_id_len : Nat := 1

/-- Bounds of `Id`: `max_id_len`. -/
def Id.max_id_len : Nat := 10

/-- Constructor `Id::Id(const char *)`. The argument `id` is the content of
the NUL-terminated string; `std::string::length` counts bytes. -/
def Id.new (id : String) : Except Error Id :=
  if id.utf8ByteSize < Id.min_id_len ∨ id.utf8ByteSize > Id.max_id_len then
    .error .InvalidIdentifier
  else
    .ok ⟨id⟩

/-- Class `Processor`: the zero flag and the sign flag. -/
structure Processor where
  zero_flag : Bool
  sign_flag : Bool
  deriving DecidableEq, Repr

/-- Class `Memory`: the cells, the capacity given at construction, and the
label table. -/
structure Memory where
  memory : List Int
  memory_size : Nat
  id_to_address : List (Id × Nat)
  deriving DecidableEq, Repr

end Computer

/-- Class `Computer`: the data members `processor` and `memory`. -/
structure Computer where
  processor : Computer.Processor
  memory : Computer.Memory
  deriving DecidableEq, Repr

namespace Computer

/-- Constructor `Memory::Memory(uint64_t)`: no cell is allocated yet. -/
def Memory.new (memory_size : Nat) : Memory :=
  { memory := [], memory_size := memory_size, id_to_address := [] }

/-- Constructor `Computer::Computer(uint64_t)`; both flags start cleared. -/
def new (memory_size : Nat) : Computer :=
  { processor := { zero_flag := false, sign_flag := false },
    memory := Memory.new memory_size }

namespace Memory

/-- Method `Memory::check_if_valid_address`. -/
def check_if_valid_address (m : Memory) (address : Nat) : Except Error Unit :=
  if m.memory.length ≤ address then .error .OutOfRange else .ok ()

/-- Method `Memory::init`: `memory.assign(memory_size, 0)` and
`id_to_address.clear()`. -/
def init (m : Memory) : Memory :=
  { m with memory := List.replicate m.memory_size 0, id_to_address := [] }

/-- Method `Memory::operator[](const Id &)`. -/
def address_of (m : Memory) (id : Id) : Except Error Nat :=
  match m.id_to_address.lookup id with
  | none => .error .UndefinedLabel
  | some a => .ok a

/-- Method `Memory::operator[](uint64_t)`. -/
def read (m : Memory) (address : Nat) : Except Error Int :=
  match m.check_if_valid_address address with
  | .error e => .error e
  | .ok _ => .ok (m.memory.getD address 0)

/-- Method `Memory::set_value`. -/
def set_value (m : Memory) (address : Nat) (new_value : Int) : Except Error Memory :=
  match m.check_if_valid_address address with
  | .error e => .error e
  | .ok _ => .ok { m with memory := m.memory.set address new_value }

/-- Method `Memory::define_data`. The test is an equality, as in the source;
`new_address > memory.size()` cannot occur in a state reached from `init`
(there the C++ store would be out of bounds; here it changes nothing). -/
def define_data (m : Memory) (id : Id) (value : Int) : Except Error Memory :=
  let new_address := m.id_to_address.length
  if new_address = m.memory.length then
    .error .CapacityExceeded
  else
    let memory := m.memory.set new_address value
    if m.id_to_address.lookup id = none then
      .ok { m with memory := memory,
                   id_to_address := m.id_to_address ++ [(id, new_address)] }
    else
      .ok { m with memory := memory }

end Memory

/-- The `RValue` nodes: `Num` (a literal), `Lea` (address of a label) and
`Mem` (content of the cell whose address is the value of `input`). -/
inductive RValue where
  | Num (value : Int)
  | Lea (id : Id)
  | Mem (input : RValue)
  deriving DecidableEq, Repr

/-- The `LValue` nodes: `Mem` is the only class derived from `LValue`. -/
inductive LValue where
  | Mem (input : RValue)
  deriving DecidableEq, Repr

/-- An `LValue` is an `RValue`. -/
def LValue.toRValue : LValue → RValue
  | .Mem input => .Mem input

/-- Method `execute` of an `RValue` followed by `get_value()`:
`Num::execute` does nothing, `Lea::execute` stores `memory[id]` (a `uint64_t`)
into the `int64_t` field, `Mem::execute` runs `input`, converts its value to
`uint64_t` and reads that cell. -/
def RValue.execute : RValue → Computer → Except Error Int
  | .Num value, _ => .ok value
  | .Lea id, c =>
    match c.memory.address_of id with
    | .error e => .error e
    | .ok a => .ok (wrap64 a)
  | .Mem input, c =>
    match input.execute c with
    | .error e => .error e
    | .ok comp_address => c.memory.read (toU64 comp_address)

/-- Method `Mem::execute` seen through `LValue`: the pair
`(get_address(), get_value())` after the call. -/
def LValue.execute : LValue → Computer → Except Error (Nat × Int)
  | .Mem input, c =>
    match input.execute c with
    | .error e => .error e
    | .ok comp_address =>
      match c.memory.read (toU64 comp_address) with
      | .error e => .error e
      | .ok value => .ok (toU64 comp_address, value)

/-- The instructions. `Data` holds its `Num` as the literal; the function
pointer of `ArithmeticOperation` is the field `operation`. -/
inductive Instruction where
  | Mov (dst : LValue) (src : RValue)
  | Data (id : Id) (num : Int)
  | ArithmeticOperation (dst : LValue) (val : RValue) (operation : Int → Int → Int)
  | Onez (dst : LValue)
  | Ones (dst : LValue)

/-- Class `Add`: the lambda `val_1 + val_2` on `int64_t`. -/
def Instruction.Add (dst : LValue) (val : RValue) : Instruction :=
  .ArithmeticOperation dst val (fun val_1 val_2 => wrap64 (val_1 + val_2))

/-- Class `Sub`: the lambda `val_1 - val_2` on `int64_t`. -/
def Instruction.Sub (dst : LValue) (val : RValue) : Instruction :=
  .ArithmeticOperation dst val (fun val_1 val_2 => wrap64 (val_1 - val_2))

/-- Method `Instruction::execute_first`: only `Data` passes `true` to the base
constructor. -/
def Instruction.execute_first : Instruction → Bool
  | .Data _ _ => true
  | _ => false

/-- What a call leaves behind: the exception that escaped it, if any, and the
machine afterwards. -/
structure Outcome where
  error : Option Error
  computer : Computer
  deriving DecidableEq, Repr

/-- Method `Mov::execute`. -/
def Mov.execute (dst : LValue) (src : RValue) (c : Computer) : Outcome :=
  match dst.execute c with
  | .error e => ⟨some e, c⟩
  | .ok (dst_address, _) =>
    match src.execute c with
    | .error e => ⟨some e, c⟩
    | .ok src_value =>
      match c.memory.set_value dst_address src_value with
      | .error e => ⟨some e, c⟩
      | .ok m => ⟨none, { c with memory := m }⟩

/-- Method `Data::execute`. -/
def Data.execute (id : Id) (num : Int) (c : Computer) : Outcome :=
  match c.memory.define_data id num with
  | .error e => ⟨some e, c⟩
  | .ok m => ⟨none, { c with memory := m }⟩

/-- Method `ArithmeticOperation::execute`. -/
def ArithmeticOperation.execute (dst : LValue) (val : RValue)
    (operation : Int → Int → Int) (c : Computer) : Outcome :=
  match dst.execute c with
  | .error e => ⟨some e, c⟩
  | .ok (dst_address, _) =>
    match val.execute c with
    | .error e => ⟨some e, c⟩
    | .ok value =>
      match c.memory.read dst_address with
      | .error e => ⟨some e, c⟩
      | .ok old_value =>
        let new_value := operation old_value value
        match c.memory.set_value dst_address new_value with
        | .error e => ⟨some e, c⟩
        | .ok m =>
          ⟨none, { processor := { zero_flag := decide (new_value = 0),
                                  sign_flag := decide (new_value < 0) },
                   memory := m }⟩

/-- Method `Onez::execute`: the wrapped move is `Mov(dst, Num(1))`. -/
def Onez.execute (dst : LValue) (c : Computer) : Outcome :=
  if c.processor.zero_flag then Mov.execute dst (.Num 1) c else ⟨none, c⟩

/-- Method `Ones::execute`: the wrapped move is `Mov(dst, Num(1))`. -/
def Ones.execute (dst : LValue) (c : Computer) : Outcome :=
  if c.processor.sign_flag then Mov.execute dst (.Num 1) c else ⟨none, c⟩

/-- Virtual dispatch of `execute`. -/
def Instruction.execute : Instruction → Computer → Outcome
  | .Mov dst src, c => Mov.execute dst src c
  | .Data id num, c => Data.execute id num c
  | .ArithmeticOperation dst val operation, c =>
    ArithmeticOperation.execute dst val operation c
  | .Onez dst, c => Onez.execute dst c
  | .Ones dst, c => Ones.execute dst c

/-- Class `Program`: the vector of instructions. -/
abbrev Program := List Instruction

/-- One of the two loops of `Computer::boot`: the instructions whose
`execute_first()` equals `first` are executed in program order, and the loop
is left at the first exception. -/
def run_pass (first : Bool) : Program → Computer → Outcome
  | [], c => ⟨none, c⟩
  | instr :: rest, c =>
    if instr.execute_first = first then
      match instr.execute c with
      | ⟨some e, c1⟩ => ⟨some e, c1⟩
      | ⟨none, c1⟩ => run_pass first rest c1
    else
      run_pass first rest c

/-- Method `Computer::boot`. -/
def boot (c : Computer) (program : Program) : Outcome :=
  match run_pass true program { c with memory := c.memory.init } with
  | ⟨some e, c1⟩ => ⟨some e, c1⟩
  | ⟨none, c1⟩ => run_pass false program c1

/-- Method `Computer::memory_dump`, as the list of the values written. -/
def memory_dump (c : Computer) : List Int := c.memory.memory

/-- The instruction is a `Data` (a data definition). -/
def Instruction.is_data : Instruction → Bool
  | .Data _ _ => true
  | _ => false

/-! ## Vocabulary of the statements -/

/-- The state left by a successful write of `v` at `a`. -/
def written (c : Computer) (a : Nat) (v : Int) : Computer :=
  { c with memory := { c.memory with memory := c.memory.memory.set a v } }

/-- A run of `define_data` calls in order, stopping at the first exception.
On success the result lists, for each call, the address it wrote (the value
of the local `new_address`, the table size when the call was made), together
with the final memory. -/
def define_all : List (Id × Int) → Memory → Except Error (List Nat × Memory)
  | [], m => .ok ([], m)
  | (id, value) :: rest, m =>
    match m.define_data id value with
    | .error e => .error e
    | .ok m1 =>
      match define_all rest m1 with
      | .error e => .error e
      | .ok (addresses, m2) => .ok (m.id_to_address.length :: addresses, m2)

/-- The invariant of the label table: its size is at most the number of cells,
every bound address is below its size, and distinct identifiers are bound to
distinct addresses. -/
def Memory.Inv (m : Memory) : Prop :=
  m.id_to_address.length ≤ m.memory.length ∧
  (∀ p ∈ m.id_to_address, p.2 < m.id_to_address.length) ∧
  m.id_to_address.Pairwise (fun p q => p.1 ≠ q.1 → p.2 ≠ q.2)

/-- The invariant can be evaluated on a concrete memory. -/
instance Memory.decidableInv (m : Memory) : Decidable m.Inv := by
  unfold Memory.Inv
  infer_instance

/-- The program made of one `Data` per definition, in order. -/
def data_program (defs : List (Id × Int)) : Program :=
  defs.map (fun d => Instruction.Data d.1 d.2)

/-- The machine after the definitions `defs` (pairwise distinct identifiers, no
more than the capacity) have run on `c` after `init`: the values in order,
zero-padded to the capacity, and the identifier number `i` bound to `i`. -/
def defined (c : Computer) (defs : List (Id × Int)) : Computer :=
  { processor := c.processor,
    memory := { memory := defs.map Prod.snd ++
                  List.replicate (c.memory.memory_size - defs.length) 0,
                memory_size := c.memory.memory_size,
                id_to_address := (defs.map Prod.fst).zip (List.range defs.length) } }

/-- The instruction is an `ArithmeticOperation` (in particular an `Add` or a
`Sub`), the only class whose `execute` calls the flag setters. -/
def Instruction.is_arithmetic : Instruction → Bool
  | .ArithmeticOperation _ _ _ => true
  | _ => false

/-- Builder `inc` of `ooasm.h`: an `Add` of `Num(1)`. -/
def inc (dst : LValue) : Instruction := Instruction.Add dst (.Num 1)

/-- Builder `dec` of `ooasm.h`: a `Sub` of `Num(1)`. -/
def dec (dst : LValue) : Instruction := Instruction.Sub dst (.Num 1)

/-! ## Integer conversions -/

theorem toU64_lt (x : Int) : toU64 x < 2 ^ 64 := by
  unfold toU64
  have h1 : 0 ≤ x % 2 ^ 64 := Int.emod_nonneg _ (by norm_num)
  have h2 : x % 2 ^ 64 < 2 ^ 64 := Int.emod_lt_of_pos _ (by norm_num)
  omega

theorem wrap64_of_range (x : Int) (h1 : -2 ^ 63 ≤ x) (h2 : x < 2 ^ 63) : wrap64 x = x := by
  unfold wrap64
  omega

theorem wrap64_range (x : Int) : -2 ^ 63 ≤ wrap64 x ∧ wrap64 x < 2 ^ 63 := by
  unfold wrap64
  omega

theorem toU64_wrap64 (a : Nat) (h : a < 2 ^ 64) : toU64 (wrap64 (a : Int)) = a := by
  unfold toU64 wrap64
  omega

/-! ## Memory operations -/

namespace Memory

theorem read_eq_ok_iff (m : Memory) (address : Nat) (v : Int) :
    m.read address = .ok v ↔ address < m.memory.length ∧ m.memory.getD address 0 = v := by
  unfold read check_if_valid_address
  by_cases h : m.memory.length ≤ address
  · simp [h]
  · simp [h, Nat.lt_of_not_le h]

theorem read_eq_error_iff (m : Memory) (address : Nat) (e : Error) :
    m.read address = .error e ↔ m.memory.length ≤ address ∧ e = .OutOfRange := by
  unfold read check_if_valid_address
  by_cases h : m.memory.length ≤ address
  · simp [h, eq_comm]
  · simp [h]

theorem set_value_eq_ok_iff (m m1 : Memory) (address : Nat) (v : Int) :
    m.set_value address v = .ok m1 ↔
      address < m.memory.length ∧ m1 = { m with memory := m.memory.set address v } := by
  unfold set_value check_if_valid_address
  by_cases h : m.memory.length ≤ address
  · simp [h]
  · simp [h, Nat.lt_of_not_le h, eq_comm]

theorem set_value_eq_error_iff (m : Memory) (address : Nat) (v : Int) (e : Error) :
    m.set_value address v = .error e ↔ m.memory.length ≤ address ∧ e = .OutOfRange := by
  unfold set_value check_if_valid_address
  by_cases h : m.memory.length ≤ address
  · simp [h, eq_comm]
  · simp [h]

theorem define_data_eq_error_iff (m : Memory) (id : Id) (value : Int) (e : Error) :
    m.define_data id value = .error e ↔
      m.id_to_address.length = m.memory.length ∧ e = .CapacityExceeded := by
  unfold define_data
  by_cases h : m.id_to_address.length = m.memory.length
  · simp [h, eq_comm]
  · by_cases hl : List.lookup id m.id_to_address = none <;> simp only [h, hl] <;> simp

theorem define_data_new (m : Memory) (id : Id) (value : Int)
    (h : m.id_to_address.length ≠ m.memory.length)
    (hl : m.id_to_address.lookup id = none) :
    m.define_data id value =
      .ok { m with memory := m.memory.set m.id_to_address.length value,
                   id_to_address := m.id_to_address ++ [(id, m.id_to_address.length)] } := by
  unfold define_data
  simp only [h, hl, if_false, if_true]

theorem define_data_old (m : Memory) (id : Id) (value : Int)
    (h : m.id_to_address.length ≠ m.memory.length)
    (hl : m.id_to_address.lookup id ≠ none) :
    m.define_data id value =
      .ok { m with memory := m.memory.set m.id_to_address.length value } := by
  unfold define_data
  simp only [h, hl, if_false]

end Memory

/-! ## Evaluation of locations and execution of single instructions -/

theorem LValue.execute_ok {dst : LValue} {c : Computer} {a : Nat} {v : Int}
    (h : dst.execute c = .ok (a, v)) :
    a < c.memory.memory.length ∧ c.memory.memory.getD a 0 = v ∧ a < 2 ^ 64 := by
  cases dst with
  | Mem input =>
    unfold LValue.execute at h
    cases hi : input.execute c with
    | error e => simp [hi] at h
    | ok comp_address =>
      cases hr : c.memory.read (toU64 comp_address) with
      | error e => simp [hi, hr] at h
      | ok value =>
        simp only [hi, hr, Except.ok.injEq, Prod.mk.injEq] at h
        obtain ⟨rfl, rfl⟩ := h
        have := (Memory.read_eq_ok_iff _ _ _).1 hr
        exact ⟨this.1, this.2, toU64_lt _⟩

theorem Mov_execute_cases (dst : LValue) (src : RValue) (c : Computer) :
    (∃ e, Mov.execute dst src c = ⟨some e, c⟩ ∧
      (dst.execute c = .error e ∨
        ((∃ r, dst.execute c = .ok r) ∧ src.execute c = .error e))) ∨
    (∃ a old v, dst.execute c = .ok (a, old) ∧ src.execute c = .ok v ∧
      Mov.execute dst src c = ⟨none, written c a v⟩) := by
  unfold Mov.execute
  cases hd : dst.execute c with
  | error e => exact Or.inl ⟨e, rfl, Or.inl rfl⟩
  | ok r =>
    obtain ⟨a, old⟩ := r
    cases hs : src.execute c with
    | error e => exact Or.inl ⟨e, rfl, Or.inr ⟨⟨_, rfl⟩, rfl⟩⟩
    | ok v =>
      refine Or.inr ⟨a, old, v, rfl, rfl, ?_⟩
      have ha := (LValue.execute_ok hd).1
      have : c.memory.set_value a v = .ok { c.memory with memory := c.memory.memory.set a v } :=
        (Memory.set_value_eq_ok_iff _ _ _ _).2 ⟨ha, rfl⟩
      simp only [this]
      rfl

theorem ArithmeticOperation_execute_cases (dst : LValue) (val : RValue)
    (operation : Int → Int → Int) (c : Computer) :
    (∃ e, ArithmeticOperation.execute dst val operation c = ⟨some e, c⟩ ∧
      (dst.execute c = .error e ∨
        ((∃ r, dst.execute c = .ok r) ∧ val.execute c = .error e))) ∨
    (∃ a old v, dst.execute c = .ok (a, old) ∧ val.execute c = .ok v ∧
      ArithmeticOperation.execute dst val operation c =
        ⟨none, { processor := { zero_flag := decide (operation old v = 0),
                                sign_flag := decide (operation old v < 0) },
                 memory := (written c a (operation old v)).memory }⟩) := by
  unfold ArithmeticOperation.execute
  cases hd : dst.execute c with
  | error e => exact Or.inl ⟨e, rfl, Or.inl rfl⟩
  | ok r =>
    obtain ⟨a, old⟩ := r
    cases hs : val.execute c with
    | error e => exact Or.inl ⟨e, rfl, Or.inr ⟨⟨_, rfl⟩, rfl⟩⟩
    | ok v =>
      refine Or.inr ⟨a, old, v, rfl, rfl, ?_⟩
      have ha := LValue.execute_ok hd
      have hr : c.memory.read a = .ok old := (Memory.read_eq_ok_iff _ _ _).2 ⟨ha.1, ha.2.1⟩
      have : c.memory.set_value a (operation old v) =
          .ok { c.memory with memory := c.memory.memory.set a (operation old v) } :=
        (Memory.set_value_eq_ok_iff _ _ _ _).2 ⟨ha.1, rfl⟩
      simp only [hr, this]
      rfl

/-! ## The two passes of `boot` -/

theorem execute_first_eq_is_data (instr : Instruction) :
    instr.execute_first = instr.is_data := by
  cases instr <;> rfl

theorem run_pass_append (first : Bool) (p q : Program) (c : Computer) :
    run_pass first (p ++ q) c =
      match run_pass first p c with
      | ⟨some e, c1⟩ => ⟨some e, c1⟩
      | ⟨none, c1⟩ => run_pass first q c1 := by
  induction p generalizing c with
  | nil => simp [run_pass]
  | cons instr rest ih =>
    by_cases hf : instr.execute_first = first
    · rcases h : instr.execute c with ⟨_ | e, c1⟩
      · simp [run_pass, hf, h, ih]
      · simp [run_pass, hf, h]
    · simp [run_pass, hf, ih]

theorem run_pass_skip (first : Bool) (p : Program) (c : Computer)
    (h : ∀ instr ∈ p, instr.execute_first ≠ first) :
    run_pass first p c = ⟨none, c⟩ := by
  induction p with
  | nil => rfl
  | cons instr rest ih =>
    have h1 : instr.execute_first ≠ first := h instr (List.mem_cons_self _ _)
    have h2 : ∀ i ∈ rest, i.execute_first ≠ first :=
      fun i hi => h i (List.mem_cons_of_mem _ hi)
    simp [run_pass, h1, ih h2]

theorem run_pass_filter (first : Bool) (p : Program) (c : Computer) :
    run_pass first (p.filter (fun instr => instr.execute_first == first)) c =
      run_pass first p c := by
  induction p generalizing c with
  | nil => rfl
  | cons instr rest ih =>
    by_cases hf : instr.execute_first = first
    · rcases h : instr.execute c with ⟨_ | e, c1⟩
      · simp [run_pass, hf, h, ih]
      · simp [run_pass, hf, h]
    · simp [run_pass, hf, ih]

/-! ## The label table during `boot` -/

theorem execute_table_of_not_first (instr : Instruction) (c : Computer)
    (h : instr.execute_first = false) :
    (instr.execute c).computer.memory.id_to_address = c.memory.id_to_address := by
  cases instr with
  | Data id num => simp [Instruction.execute_first] at h
  | Mov dst src =>
    rcases Mov_execute_cases dst src c with ⟨e, he, _⟩ | ⟨a, old, v, _, _, he⟩ <;>
      simp [Instruction.execute, he, written]
  | ArithmeticOperation dst val operation =>
    rcases ArithmeticOperation_execute_cases dst val operation c with
      ⟨e, he, _⟩ | ⟨a, old, v, _, _, he⟩ <;>
      simp [Instruction.execute, he, written]
  | Onez dst =>
    simp only [Instruction.execute, Onez.execute]
    split
    · rcases Mov_execute_cases dst (.Num 1) c with ⟨e, he, _⟩ | ⟨a, old, v, _, _, he⟩ <;>
        simp [he, written]
    · rfl
  | Ones dst =>
    simp only [Instruction.execute, Ones.execute]
    split
    · rcases Mov_execute_cases dst (.Num 1) c with ⟨e, he, _⟩ | ⟨a, old, v, _, _, he⟩ <;>
        simp [he, written]
    · rfl

theorem run_pass_false_table (p : Program) (c : Computer) :
    (run_pass false p c).computer.memory.id_to_address = c.memory.id_to_address := by
  induction p generalizing c with
  | nil => rfl
  | cons instr rest ih =>
    by_cases hf : instr.execute_first = false
    · have ht := execute_table_of_not_first instr c hf
      rcases h : instr.execute c with ⟨_ | e, c1⟩
      · rw [h] at ht
        simp only [run_pass, hf, if_true, h]
        rw [ih c1]
        exact ht
      · rw [h] at ht
        simp only [run_pass, hf, if_true, h]
        exact ht
    · simp only [run_pass, hf, if_false]
      exact ih c

theorem Data_execute_cases (id : Id) (num : Int) (c : Computer) :
    (c.memory.id_to_address.length = c.memory.memory.length ∧
      Data.execute id num c = ⟨some .CapacityExceeded, c⟩) ∨
    (c.memory.id_to_address.length ≠ c.memory.memory.length ∧
      c.memory.id_to_address.lookup id = none ∧
      Data.execute id num c = ⟨none, { c with memory :=
        { c.memory with
          memory := c.memory.memory.set c.memory.id_to_address.length num,
          id_to_address := c.memory.id_to_address ++ [(id, c.memory.id_to_address.length)] } }⟩) ∨
    (c.memory.id_to_address.length ≠ c.memory.memory.length ∧
      c.memory.id_to_address.lookup id ≠ none ∧
      Data.execute id num c = ⟨none, written c c.memory.id_to_address.length num⟩) := by
  unfold Data.execute
  by_cases h : c.memory.id_to_address.length = c.memory.memory.length
  · have : c.memory.define_data id num = .error .CapacityExceeded :=
      (Memory.define_data_eq_error_iff _ _ _ _).2 ⟨h, rfl⟩
    exact Or.inl ⟨h, by rw [this]⟩
  · by_cases hl : c.memory.id_to_address.lookup id = none
    · exact Or.inr (Or.inl ⟨h, hl, by rw [Memory.define_data_new _ _ _ h hl]⟩)
    · exact Or.inr (Or.inr ⟨h, hl, by rw [Memory.define_data_old _ _ _ h hl]; rfl⟩)

theorem lookup_append_ne_none {l : List (Id × Nat)} {id : Id} (l2 : List (Id × Nat))
    (h : l.lookup id ≠ none) : (l ++ l2).lookup id ≠ none := by
  rw [List.lookup_append]
  cases hl : l.lookup id with
  | none => exact absurd hl h
  | some a => simp

theorem execute_table_mono (instr : Instruction) (c : Computer) (id : Id)
    (h : c.memory.id_to_address.lookup id ≠ none) :
    (instr.execute c).computer.memory.id_to_address.lookup id ≠ none := by
  by_cases hf : instr.execute_first = false
  · rw [execute_table_of_not_first instr c hf]
    exact h
  · cases instr with
    | Data id1 num =>
      rcases Data_execute_cases id1 num c with ⟨_, he⟩ | ⟨_, _, he⟩ | ⟨_, _, he⟩
      · simpa [Instruction.execute, he] using h
      · simp only [Instruction.execute, he]
        exact lookup_append_ne_none _ h
      · simpa [Instruction.execute, he, written] using h
    | Mov dst src => simp [Instruction.execute_first] at hf
    | ArithmeticOperation dst val operation => simp [Instruction.execute_first] at hf
    | Onez dst => simp [Instruction.execute_first] at hf
    | Ones dst => simp [Instruction.execute_first] at hf

theorem run_pass_table_mono (first : Bool) (p : Program) (c : Computer) (id : Id)
    (h : c.memory.id_to_address.lookup id ≠ none) :
    (run_pass first p c).computer.memory.id_to_address.lookup id ≠ none := by
  induction p generalizing c with
  | nil => exact h
  | cons instr rest ih =>
    by_cases hf : instr.execute_first = first
    · have ht := execute_table_mono instr c id h
      rcases he : instr.execute c with ⟨_ | e, c1⟩
      · rw [he] at ht
        simp only [run_pass, hf, if_true, he]
        exact ih c1 ht
      · rw [he] at ht
        simp only [run_pass, hf, if_true, he]
        exact ht
    · simp only [run_pass, hf, if_false]
      exact ih c h

theorem run_pass_true_defines (p : Program) (c c1 : Computer) (id : Id) (num : Int)
    (hmem : Instruction.Data id num ∈ p) (h : run_pass true p c = ⟨none, c1⟩) :
    c1.memory.id_to_address.lookup id ≠ none := by
  induction p generalizing c with
  | nil => simp at hmem
  | cons instr rest ih =>
    rcases List.mem_cons.1 hmem with heq | hrest
    · subst heq
      simp only [run_pass, Instruction.execute_first, if_true, Instruction.execute] at h
      rcases Data_execute_cases id num c with ⟨_, he⟩ | ⟨_, _, he⟩ | ⟨_, hl, he⟩
      · simp [he] at h
      · rw [he] at h
        simp only at h
        have := run_pass_table_mono true rest _ id
          (by simp [List.lookup_append] :
            ({ c with memory :=
              { c.memory with
                memory := c.memory.memory.set c.memory.id_to_address.length num,
                id_to_address := c.memory.id_to_address ++
                  [(id, c.memory.id_to_address.length)] } } : Computer).memory.id_to_address.lookup id
              ≠ none)
        rw [h] at this
        exact this
      · rw [he] at h
        simp only at h
        have := run_pass_table_mono true rest (written c c.memory.id_to_address.length num) id hl
        rw [h] at this
        exact this
    · by_cases hf : instr.execute_first = true
      · rcases he : instr.execute c with ⟨_ | e, c2⟩
        · simp only [run_pass, hf, if_true, he] at h
          exact ih c2 hrest h
        · simp [run_pass, hf, he] at h
      · simp only [run_pass, hf, if_false] at h
        exact ih c hrest h

/-! ## C1: data definitions run first, wherever they stand -/

theorem filter_is_data (p : Program) :
    p.filter (fun i => i.is_data) = p.filter (fun i => i.execute_first == true) ∧
    p.filter (fun i => !i.is_data) = p.filter (fun i => i.execute_first == false) := by
  constructor <;>
  · apply List.filter_congr
    intro i _
    rw [execute_first_eq_is_data]
    cases i.is_data <;> rfl

theorem boot_reorder (c : Computer) (p : Program) :
    boot c (p.filter (fun i => i.is_data) ++ p.filter (fun i => !i.is_data)) = boot c p := by
  obtain ⟨hD, hR⟩ := filter_is_data p
  rw [hD, hR]
  have hskipR : ∀ c1, run_pass true (p.filter (fun i => i.execute_first == false)) c1 = ⟨none, c1⟩ :=
    fun c1 => run_pass_skip true _ c1 (by
      intro i hi
      have := (List.mem_filter.1 hi).2
      simp only [beq_iff_eq] at this
      simp [this])
  have hskipD : ∀ c1, run_pass false (p.filter (fun i => i.execute_first == true)) c1 = ⟨none, c1⟩ :=
    fun c1 => run_pass_skip false _ c1 (by
      intro i hi
      have := (List.mem_filter.1 hi).2
      simp only [beq_iff_eq] at this
      simp [this])
  unfold boot
  rw [run_pass_append, run_pass_filter true p]
  rcases h : run_pass true p { c with memory := c.memory.init } with ⟨_ | e, c1⟩
  · simp only [hskipR]
    rw [run_pass_append, hskipD]
    simp only
    exact run_pass_filter false p c1
  · rfl

/-- C1: `boot` of a program has the same outcome (error and machine left
behind) as `boot` of its `Data` instructions followed by its other
instructions, each in program order; and a label defined by a `Data` anywhere
in the program resolves at every instruction of the second pass that is
reached. -/
theorem boot_data_first (c : Computer) (p : Program) :
    boot c p = boot c (p.filter (fun i => i.is_data) ++ p.filter (fun i => !i.is_data)) ∧
    ∀ (id : Id) (num : Int) (pre post : Program) (instr : Instruction) (c1 c2 : Computer),
      p = pre ++ instr :: post → Instruction.Data id num ∈ p →
      run_pass true p { c with memory := c.memory.init } = ⟨none, c1⟩ →
      run_pass false pre c1 = ⟨none, c2⟩ →
      ∃ a, c2.memory.address_of id = .ok a := by
  refine ⟨(boot_reorder c p).symm, ?_⟩
  intro id num pre post instr c1 c2 _ hmem h1 h2
  have hl1 := run_pass_true_defines p _ c1 id num hmem h1
  have ht := run_pass_false_table pre c1
  rw [h2] at ht
  simp only at ht
  unfold Memory.address_of
  rw [ht]
  cases hl : List.lookup id c1.memory.id_to_address with
  | none => exact absurd hl hl1
  | some a => exact ⟨a, rfl⟩

/-- C1 at capacity 2 with the `Data` placed after the `Mov` that uses its
label: the outcome is that of the reordered program, and the label resolves
when the `Mov` runs. -/
theorem boot_data_first_witness :
    boot (Computer.new 2) [.Mov (.Mem (.Lea ⟨"x"⟩)) (.Num 7), .Data ⟨"x"⟩ 3] =
      boot (Computer.new 2) [.Data ⟨"x"⟩ 3, .Mov (.Mem (.Lea ⟨"x"⟩)) (.Num 7)] ∧
    (boot (Computer.new 2) [.Mov (.Mem (.Lea ⟨"x"⟩)) (.Num 7), .Data ⟨"x"⟩ 3]).error = none ∧
    (boot (Computer.new 2) [.Mov (.Mem (.Lea ⟨"x"⟩)) (.Num 7), .Data ⟨"x"⟩ 3]).computer.memory.memory
      = [7, 0] ∧
    ∃ a, Memory.address_of ⟨[3, 0], 2, [(⟨"x"⟩, 0)]⟩ ⟨"x"⟩ = .ok a :=
  ⟨(boot_data_first (Computer.new 2) [.Mov (.Mem (.Lea ⟨"x"⟩)) (.Num 7), .Data ⟨"x"⟩ 3]).1,
   by decide, by decide,
   (boot_data_first (Computer.new 2) [.Mov (.Mem (.Lea ⟨"x"⟩)) (.Num 7), .Data ⟨"x"⟩ 3]).2
     ⟨"x"⟩ 3 [] [.Data ⟨"x"⟩ 3] (.Mov (.Mem (.Lea ⟨"x"⟩)) (.Num 7))
     ⟨⟨false, false⟩, ⟨[3, 0], 2, [(⟨"x"⟩, 0)]⟩⟩ ⟨⟨false, false⟩, ⟨[3, 0], 2, [(⟨"x"⟩, 0)]⟩⟩
     rfl (List.mem_cons_of_mem _ (List.mem_cons_self _ _)) (by decide) (by decide)⟩

/-! ## C2: `define_data` -/

theorem Memory.read_set (m : Memory) (a b : Nat) (v : Int) :
    Memory.read { m with memory := m.memory.set a v } b =
      if a = b ∧ a < m.memory.length then .ok v else m.read b := by
  unfold Memory.read Memory.check_if_valid_address
  simp only [List.length_set]
  by_cases hb : m.memory.length ≤ b
  · have : ¬ (a = b ∧ a < m.memory.length) := fun h => by omega
    simp [hb, this]
  · have hb1 : b < m.memory.length := Nat.lt_of_not_le hb
    by_cases hab : a = b
    · subst hab
      simp [hb, hb1, List.getD_eq_getElem?_getD, List.getElem?_set]
    · simp [hb, hab, List.getD_eq_getElem?_getD, List.getElem?_set]

/-- C2: in a memory whose label table is no longer than its cell vector (every
memory reached from `init`), `define_data id value` throws, and then
`CapacityExceeded`, exactly when the table size `a` has reached the capacity;
otherwise it stores `value` in cell `a`, keeps every other cell, binds
`id` to `a` when `id` was absent (the other bindings staying as they were), and
keeps the whole table when `id` was present. -/
theorem define_data_spec (m : Memory) (id : Id) (value : Int)
    (hsize : m.id_to_address.length ≤ m.memory.length) :
    (m.define_data id value = .error .CapacityExceeded ↔
      m.memory.length ≤ m.id_to_address.length) ∧
    (∀ e, m.define_data id value = .error e → e = .CapacityExceeded) ∧
    (m.id_to_address.length < m.memory.length →
      ∃ m1, m.define_data id value = .ok m1 ∧
        m1.memory = m.memory.set m.id_to_address.length value ∧
        m1.memory_size = m.memory_size ∧
        m1.read m.id_to_address.length = .ok value ∧
        (∀ b, b ≠ m.id_to_address.length → m1.read b = m.read b) ∧
        (m.id_to_address.lookup id = none →
          m1.address_of id = .ok m.id_to_address.length ∧
          (∀ id1, id1 ≠ id → m1.address_of id1 = m.address_of id1) ∧
          m1.id_to_address.length = m.id_to_address.length + 1) ∧
        (m.id_to_address.lookup id ≠ none → m1.id_to_address = m.id_to_address)) := by
  refine ⟨?_, ?_, ?_⟩
  · rw [Memory.define_data_eq_error_iff]
    constructor
    · intro h; omega
    · intro h; exact ⟨by omega, rfl⟩
  · intro e he
    exact ((Memory.define_data_eq_error_iff _ _ _ _).1 he).2
  · intro hlt
    have hne : m.id_to_address.length ≠ m.memory.length := by omega
    by_cases hl : m.id_to_address.lookup id = none
    · refine ⟨_, Memory.define_data_new m id value hne hl, rfl, rfl, ?_, ?_, ?_, ?_⟩
      · have := Memory.read_set
          { m with id_to_address := m.id_to_address ++ [(id, m.id_to_address.length)] }
          m.id_to_address.length m.id_to_address.length value
        simp only [hlt, and_self, if_true] at this
        exact this
      · intro b hb
        have := Memory.read_set
          { m with id_to_address := m.id_to_address ++ [(id, m.id_to_address.length)] }
          m.id_to_address.length b value
        simp only [Ne.symm hb, false_and, if_false] at this
        exact this
      · intro _
        refine ⟨?_, ?_, ?_⟩
        · simp only [Memory.address_of, List.lookup_append, hl, Option.or]
          simp [List.lookup]
        · intro id1 hid1
          simp only [Memory.address_of, List.lookup_append]
          cases h1 : List.lookup id1 m.id_to_address with
          | none =>
            have hne1 : (id1 == id) = false := by simp [hid1]
            simp [List.lookup, hne1]
          | some a => simp
        · simp
      · intro h; exact absurd hl h
    · refine ⟨_, Memory.define_data_old m id value hne hl, rfl, rfl, ?_, ?_, ?_, ?_⟩
      · have := Memory.read_set m m.id_to_address.length m.id_to_address.length value
        simp only [hlt, and_self, if_true] at this
        exact this
      · intro b hb
        have := Memory.read_set m m.id_to_address.length b value
        simp only [Ne.symm hb, false_and, if_false] at this
        exact this
      · intro h; exact absurd h hl
      · intro _; rfl

/-- C2 on the memory of capacity 2 holding one definition. -/
theorem define_data_spec_witness :
    (1 : Nat) ≤ 2 ∧
    Memory.define_data ⟨[4, 0], 2, [(⟨"x"⟩, 0)]⟩ ⟨"y"⟩ 9 = .ok ⟨[4, 9], 2, [(⟨"x"⟩, 0), (⟨"y"⟩, 1)]⟩ ∧
    ((Memory.define_data ⟨[4, 0], 2, [(⟨"x"⟩, 0)]⟩ ⟨"y"⟩ 9 = .error .CapacityExceeded) ↔
      (2 : Nat) ≤ 1) :=
  ⟨by decide, rfl,
   (define_data_spec ⟨[4, 0], 2, [(⟨"x"⟩, 0)]⟩ ⟨"y"⟩ 9 (by decide)).1⟩

/-! ## C3: the same identifier defined twice -/

/-- C3: with capacity at least 2, after `init`, `define_data id v1` and then
`define_data id v2` both succeed; they write the addresses 0 and 1, so the
memory reads `v1` at 0 and `v2` at 1, and `id` still resolves to 0. -/
theorem define_twice (m : Memory) (id : Id) (v1 v2 : Int) (hcap : 2 ≤ m.memory_size) :
    ∃ m1 m2, m.init.define_data id v1 = .ok m1 ∧ m1.define_data id v2 = .ok m2 ∧
      define_all [(id, v1), (id, v2)] m.init = .ok ([0, 1], m2) ∧
      m2.memory = v1 :: v2 :: List.replicate (m.memory_size - 2) 0 ∧
      m2.read 0 = .ok v1 ∧ m2.read 1 = .ok v2 ∧
      m1.address_of id = .ok 0 ∧ m2.address_of id = .ok 0 := by
  obtain ⟨n, hn⟩ : ∃ n, m.memory_size = n + 2 := ⟨m.memory_size - 2, by omega⟩
  have h1 : m.init.define_data id v1 =
      .ok ⟨v1 :: 0 :: List.replicate n 0, n + 2, [(id, 0)]⟩ := by
    simp [Memory.define_data, Memory.init, hn, List.replicate_succ]
  have h2 : Memory.define_data ⟨v1 :: 0 :: List.replicate n 0, n + 2, [(id, 0)]⟩ id v2 =
      .ok ⟨v1 :: v2 :: List.replicate n 0, n + 2, [(id, 0)]⟩ := by
    simp [Memory.define_data]
  refine ⟨_, _, h1, h2, ?_, ?_, ?_, ?_, ?_, ?_⟩
  · simp only [define_all, h1, h2]
    rfl
  · simp [hn]
  · simp [Memory.read, Memory.check_if_valid_address]
  · simp [Memory.read, Memory.check_if_valid_address]
  · simp [Memory.address_of]
  · simp [Memory.address_of]

/-- C3 at capacity 2 with the values 5 and 6. -/
theorem define_twice_witness :
    (2 : Nat) ≤ (Memory.new 2).memory_size ∧
    ∃ m1 m2, (Memory.new 2).init.define_data ⟨"x"⟩ 5 = .ok m1 ∧
      m1.define_data ⟨"x"⟩ 6 = .ok m2 ∧
      define_all [(⟨"x"⟩, 5), (⟨"x"⟩, 6)] (Memory.new 2).init = .ok ([0, 1], m2) ∧
      m2.memory = 5 :: 6 :: List.replicate ((Memory.new 2).memory_size - 2) 0 ∧
      m2.read 0 = .ok 5 ∧ m2.read 1 = .ok 6 ∧
      m1.address_of ⟨"x"⟩ = .ok 0 ∧ m2.address_of ⟨"x"⟩ = .ok 0 :=
  ⟨by decide, define_twice (Memory.new 2) ⟨"x"⟩ 5 6 (by decide)⟩

/-! ## C4: the addresses written by a run of definitions -/

theorem lookup_eq_none_iff_not_mem_keys (l : List (Id × Nat)) (id : Id) :
    l.lookup id = none ↔ id ∉ l.map Prod.fst := by
  induction l with
  | nil => simp
  | cons p rest ih =>
    obtain ⟨k, a⟩ := p
    by_cases hk : id = k
    · subst hk
      simp [List.lookup]
    · have : (id == k) = false := by simp [hk]
      simp [List.lookup, this, ih, hk]

theorem Memory.define_data_keys (m m1 : Memory) (id : Id) (value : Int)
    (h : m.define_data id value = .ok m1) :
    m.id_to_address.length ≠ m.memory.length ∧
    m1.memory = m.memory.set m.id_to_address.length value ∧
    m1.memory_size = m.memory_size ∧
    ((id ∉ m.id_to_address.map Prod.fst ∧
        m1.id_to_address = m.id_to_address ++ [(id, m.id_to_address.length)]) ∨
      (id ∈ m.id_to_address.map Prod.fst ∧ m1.id_to_address = m.id_to_address)) := by
  by_cases hne : m.id_to_address.length = m.memory.length
  · rw [(Memory.define_data_eq_error_iff m id value .CapacityExceeded).2 ⟨hne, rfl⟩] at h
    cases h
  · by_cases hl : m.id_to_address.lookup id = none
    · rw [Memory.define_data_new m id value hne hl] at h
      cases h
      exact ⟨hne, rfl, rfl, Or.inl ⟨(lookup_eq_none_iff_not_mem_keys _ _).1 hl, rfl⟩⟩
    · rw [Memory.define_data_old m id value hne hl] at h
      cases h
      refine ⟨hne, rfl, rfl, Or.inr ⟨?_, rfl⟩⟩
      by_contra hc
      exact hl ((lookup_eq_none_iff_not_mem_keys _ _).2 hc)

theorem define_all_formula (defs : List (Id × Int)) (m : Memory) (addresses : List Nat)
    (m1 : Memory) (hk : (m.id_to_address.map Prod.fst).Nodup)
    (h : define_all defs m = .ok (addresses, m1)) :
    addresses = (List.range defs.length).map (fun i =>
      (m.id_to_address.map Prod.fst ++ (defs.take i).map Prod.fst).toFinset.card) := by
  induction defs generalizing m addresses with
  | nil =>
    simp only [define_all, Except.ok.injEq, Prod.mk.injEq] at h
    simp [← h.1]
  | cons d rest ih =>
    obtain ⟨id, value⟩ := d
    unfold define_all at h
    cases hd : m.define_data id value with
    | error e => simp [hd] at h
    | ok m2 =>
      cases hr : define_all rest m2 with
      | error e => simp [hd, hr] at h
      | ok r =>
        obtain ⟨addresses2, m3⟩ := r
        simp only [hd, hr, Except.ok.injEq, Prod.mk.injEq] at h
        obtain ⟨hkeys1, -, -, hkeys⟩ := Memory.define_data_keys m m2 id value hd
        have hk2 : (m2.id_to_address.map Prod.fst).Nodup := by
          rcases hkeys with ⟨hnot, heq⟩ | ⟨_, heq⟩
          · rw [heq, List.map_append]
            simp only [List.map_cons, List.map_nil]
            exact List.Nodup.append hk (List.nodup_singleton _) (by simpa using hnot)
          · rw [heq]; exact hk
        have hih := ih m2 addresses2 hk2 (by rw [hr, h.2])
        rw [← h.1, hih, List.length_cons, List.range_succ_eq_map, List.map_cons, List.map_map]
        congr 1
        · simp [List.toFinset_card_of_nodup hk]
        · apply List.map_congr_left
          intro i _
          simp only [Function.comp, List.take_succ_cons, List.map_cons]
          congr 1
          rcases hkeys with ⟨_, heq⟩ | ⟨hin, heq⟩
          · rw [heq]
            ext x
            simp [or_assoc]
          · rw [heq]
            ext x
            simp only [List.toFinset_append, List.toFinset_cons, Finset.mem_union,
              List.mem_toFinset, Finset.mem_insert]
            constructor
            · rintro (h1 | h1)
              · exact Or.inl h1
              · exact Or.inr (Or.inr h1)
            · rintro (h1 | h1 | h1)
              · exact Or.inl h1
              · exact Or.inl (h1 ▸ hin)
              · exact Or.inr h1

theorem keys_take_succ (defs : List (Id × Int)) (i : Nat) (d : Id × Int)
    (hd : defs[i]? = some d) :
    ((defs.take (i + 1)).map Prod.fst).toFinset =
      insert d.1 ((defs.take i).map Prod.fst).toFinset := by
  rw [List.take_succ, hd]
  ext x
  simp [or_comm]

theorem keys_take_mono (defs : List (Id × Int)) {i j : Nat} (h : i ≤ j) :
    ((defs.take i).map Prod.fst).toFinset ⊆ ((defs.take j).map Prod.fst).toFinset := by
  intro x hx
  simp only [List.mem_toFinset, List.mem_map] at hx ⊢
  obtain ⟨p, hp, rfl⟩ := hx
  exact ⟨p, List.take_subset_take_left defs h hp, rfl⟩

theorem define_all_size (defs : List (Id × Int)) (m0 m1 : Memory) (addresses : List Nat)
    (hs : m0.id_to_address.length ≤ m0.memory.length)
    (h : define_all defs m0 = .ok (addresses, m1)) :
    m1.id_to_address.length ≤ m1.memory.length := by
  induction defs generalizing m0 addresses with
  | nil =>
    simp only [define_all, Except.ok.injEq, Prod.mk.injEq] at h
    rw [← h.2]
    exact hs
  | cons d rest ih =>
    obtain ⟨id, value⟩ := d
    unfold define_all at h
    cases hd : m0.define_data id value with
    | error e => simp [hd] at h
    | ok m2 =>
      cases hr : define_all rest m2 with
      | error e => simp [hd, hr] at h
      | ok r =>
        obtain ⟨addresses2, m3⟩ := r
        simp only [hd, hr, Except.ok.injEq, Prod.mk.injEq] at h
        obtain ⟨hne, hmem, -, hkeys⟩ := Memory.define_data_keys m0 m2 id value hd
        have hs2 : m2.id_to_address.length ≤ m2.memory.length := by
          rw [hmem, List.length_set]
          rcases hkeys with ⟨_, heq⟩ | ⟨_, heq⟩
          · rw [heq, List.length_append, List.length_singleton]
            omega
          · rw [heq]
            exact hs
        obtain ⟨-, hm⟩ := h
        subst hm
        exact ih m2 addresses2 hs2 hr

theorem define_all_step (defs : List (Id × Int)) (m0 m1 : Memory) (addresses : List Nat)
    (h : define_all defs m0 = .ok (addresses, m1)) (i : Nat) (d : Id × Int)
    (hd : defs[i]? = some d) :
    ∃ mi mi1, define_all (defs.take i) m0 = .ok (addresses.take i, mi) ∧
      mi.define_data d.1 d.2 = .ok mi1 ∧
      define_all (defs.take (i + 1)) m0 = .ok (addresses.take (i + 1), mi1) ∧
      addresses[i]? = some mi.id_to_address.length := by
  induction defs generalizing m0 addresses i with
  | nil => simp at hd
  | cons d0 rest ih =>
    obtain ⟨id0, value0⟩ := d0
    unfold define_all at h
    cases hd0 : m0.define_data id0 value0 with
    | error e => simp [hd0] at h
    | ok m2 =>
      cases hr : define_all rest m2 with
      | error e => simp [hd0, hr] at h
      | ok r =>
        obtain ⟨addresses2, m3⟩ := r
        simp only [hd0, hr, Except.ok.injEq, Prod.mk.injEq] at h
        obtain ⟨ha, hm⟩ := h
        subst ha hm
        cases i with
        | zero =>
          simp only [List.getElem?_cons_zero, Option.some.injEq] at hd
          subst hd
          refine ⟨m0, m2, rfl, hd0, ?_, by simp⟩
          simp only [List.take_succ_cons, List.take_zero, define_all, hd0]
        | succ k =>
          simp only [List.getElem?_cons_succ] at hd
          obtain ⟨mi, mi1, h1, h2, h3, h4⟩ := ih m2 addresses2 hr k hd
          refine ⟨mi, mi1, ?_, h2, ?_, ?_⟩
          · simp only [List.take_succ_cons, define_all, hd0, h1]
          · simp only [List.take_succ_cons, define_all, hd0, h3]
          · simpa using h4

theorem define_all_memory (defs : List (Id × Int)) (m0 m1 : Memory) (addresses : List Nat)
    (h : define_all defs m0 = .ok (addresses, m1)) :
    m1.memory = (addresses.zip (defs.map Prod.snd)).foldl
      (fun cells w => cells.set w.1 w.2) m0.memory := by
  induction defs generalizing m0 addresses with
  | nil =>
    simp only [define_all, Except.ok.injEq, Prod.mk.injEq] at h
    rw [← h.1, ← h.2]
    rfl
  | cons d rest ih =>
    obtain ⟨id, value⟩ := d
    unfold define_all at h
    cases hd : m0.define_data id value with
    | error e => simp [hd] at h
    | ok m2 =>
      cases hr : define_all rest m2 with
      | error e => simp [hd, hr] at h
      | ok r =>
        obtain ⟨addresses2, m3⟩ := r
        simp only [hd, hr, Except.ok.injEq, Prod.mk.injEq] at h
        obtain ⟨ha, hm⟩ := h
        subst ha hm
        obtain ⟨-, hmem, -, -⟩ := Memory.define_data_keys m0 m2 id value hd
        rw [ih m2 addresses2 hr, hmem]
        rfl

theorem define_all_counts (defs : List (Id × Int)) (m : Memory) (addresses : List Nat)
    (m1 : Memory) (h : define_all defs m.init = .ok (addresses, m1)) :
    addresses.length = defs.length ∧
    (∀ i, i < defs.length →
      addresses.getD i 0 = ((defs.take i).map Prod.fst).toFinset.card) ∧
    ((defs.map Prod.fst).Nodup → addresses.Nodup) ∧
    (∀ i j d, i < j → j < defs.length → defs[i]? = some d →
      d.1 ∉ (defs.take i).map Prod.fst → addresses.getD i 0 < addresses.getD j 0) ∧
    (∀ i d, i + 1 < defs.length → defs[i]? = some d →
      d.1 ∈ (defs.take i).map Prod.fst → addresses.getD (i + 1) 0 = addresses.getD i 0) := by
  have hf := define_all_formula defs m.init addresses m1 (by simp [Memory.init]) h
  simp only [Memory.init, List.map_nil, List.nil_append] at hf
  have hget : ∀ i, i < defs.length →
      addresses.getD i 0 = ((defs.take i).map Prod.fst).toFinset.card := by
    intro i hi
    rw [hf, List.getD_eq_getElem?_getD, List.getElem?_map, List.getElem?_range hi]
    rfl
  refine ⟨by rw [hf]; simp, hget, ?_, ?_, ?_⟩
  · intro hnd
    have : addresses = List.range defs.length := by
      rw [hf]
      conv_rhs => rw [← List.map_id (List.range defs.length)]
      apply List.map_congr_left
      intro i hi
      have hi1 : i < defs.length := List.mem_range.1 hi
      rw [List.map_take, List.toFinset_card_of_nodup
        (List.Nodup.sublist (List.take_sublist _ _) hnd)]
      simp [Nat.min_eq_left (Nat.le_of_lt hi1)]
    rw [this]
    exact List.nodup_range _
  · intro i j d hij hj hd hnew
    rw [hget i (by omega), hget j hj]
    have h1 : ((defs.take (i + 1)).map Prod.fst).toFinset.card =
        ((defs.take i).map Prod.fst).toFinset.card + 1 := by
      rw [keys_take_succ defs i d hd]
      exact Finset.card_insert_of_not_mem (by simpa using hnew)
    have h2 := Finset.card_le_card (keys_take_mono defs (show i + 1 ≤ j from hij))
    omega
  · intro i d hi hd hold
    rw [hget i (by omega), hget (i + 1) hi, keys_take_succ defs i d hd]
    congr 1
    exact Finset.insert_eq_of_mem (by simpa using hold)

/-- C4 (amended): after `init`, in a successful run of definitions, the call
number `i` (identifier `id`, value `v`) turns the memory `mi` left by the
calls before it into `mi1`, whose cells are those of `mi` with the cell at
`addresses[i]` set to `v`: that cell then reads `v` and every other cell reads
as before; the final cells are the zeros of `init` with these stores applied
in order. The address `addresses[i]` is the number of distinct identifiers
that the calls before call `i` defined. Hence the addresses are pairwise
distinct when the identifiers are; a call that introduces a new identifier
writes an address strictly below the address of every later call; and a call
that repeats an identifier writes the same address as the call after it. -/
theorem define_all_addresses (defs : List (Id × Int)) (m : Memory) (addresses : List Nat)
    (m1 : Memory) (h : define_all defs m.init = .ok (addresses, m1)) :
    (∀ i d, defs[i]? = some d →
      ∃ mi mi1, define_all (defs.take i) m.init = .ok (addresses.take i, mi) ∧
        mi.define_data d.1 d.2 = .ok mi1 ∧
        define_all (defs.take (i + 1)) m.init = .ok (addresses.take (i + 1), mi1) ∧
        addresses.getD i 0 < mi.memory.length ∧
        mi1.memory = mi.memory.set (addresses.getD i 0) d.2 ∧
        mi1.read (addresses.getD i 0) = .ok d.2 ∧
        (∀ b, b ≠ addresses.getD i 0 → mi1.read b = mi.read b)) ∧
    m1.memory = (addresses.zip (defs.map Prod.snd)).foldl
      (fun cells w => cells.set w.1 w.2) (List.replicate m.memory_size 0) ∧
    addresses.length = defs.length ∧
    (∀ i, i < defs.length →
      addresses.getD i 0 = ((defs.take i).map Prod.fst).toFinset.card) ∧
    ((defs.map Prod.fst).Nodup → addresses.Nodup) ∧
    (∀ i j d, i < j → j < defs.length → defs[i]? = some d →
      d.1 ∉ (defs.take i).map Prod.fst → addresses.getD i 0 < addresses.getD j 0) ∧
    (∀ i d, i + 1 < defs.length → defs[i]? = some d →
      d.1 ∈ (defs.take i).map Prod.fst → addresses.getD (i + 1) 0 = addresses.getD i 0) := by
  refine ⟨?_, define_all_memory defs m.init m1 addresses h, define_all_counts defs m addresses m1 h⟩
  intro i d hd
  obtain ⟨mi, mi1, h1, h2, h3, h4⟩ := define_all_step defs m.init m1 addresses h i d hd
  have hget : addresses.getD i 0 = mi.id_to_address.length := by
    rw [List.getD_eq_getElem?_getD, h4]
    rfl
  have hsize := define_all_size (defs.take i) m.init mi (addresses.take i)
    (by simp [Memory.init]) h1
  obtain ⟨hne, hmem, -, -⟩ := Memory.define_data_keys mi mi1 d.1 d.2 h2
  have hlt : mi.id_to_address.length < mi.memory.length := by omega
  refine ⟨mi, mi1, h1, h2, h3, by rw [hget]; exact hlt, by rw [hget]; exact hmem, ?_, ?_⟩
  · rw [hget, (Memory.read_eq_ok_iff _ _ _)]
    rw [hmem, List.length_set]
    refine ⟨hlt, ?_⟩
    simp [List.getD_eq_getElem?_getD, List.getElem?_set, hlt]
  · intro b hb
    rw [hget] at hb
    unfold Memory.read Memory.check_if_valid_address
    rw [hmem, List.length_set]
    by_cases hlen : mi.memory.length ≤ b
    · simp [hlen]
    · simp [hlen, List.getD_eq_getElem?_getD, List.getElem?_set, Ne.symm hb]

/-- C4 (amended) on the three definitions `a`, `a`, `b` at capacity 3: the
addresses written are 0, 1, 1; the third call turns the cells 1, 2, 0 into
1, 3, 0, so it overwrites the cell written by the second. -/
theorem define_all_addresses_witness :
    define_all [(⟨"a"⟩, 1), (⟨"a"⟩, 2), (⟨"b"⟩, 3)] (Memory.new 3).init =
      .ok ([0, 1, 1], ⟨[1, 3, 0], 3, [(⟨"a"⟩, 0), (⟨"b"⟩, 1)]⟩) ∧
    (∃ mi mi1, define_all [(⟨"a"⟩, 1), (⟨"a"⟩, 2)] (Memory.new 3).init = .ok ([0, 1], mi) ∧
      mi.define_data ⟨"b"⟩ 3 = .ok mi1 ∧
      define_all [(⟨"a"⟩, 1), (⟨"a"⟩, 2), (⟨"b"⟩, 3)] (Memory.new 3).init =
        .ok ([0, 1, 1], mi1) ∧
      1 < mi.memory.length ∧
      mi1.memory = mi.memory.set 1 3 ∧
      mi1.read 1 = .ok 3 ∧
      (∀ b, b ≠ 1 → mi1.read b = mi.read b)) ∧
    ([1, 3, 0] : List Int) =
      ([(0, 1), (1, 2), (1, 3)] : List (Nat × Int)).foldl
        (fun cells w => cells.set w.1 w.2) (List.replicate 3 0) ∧
    ([0, 1, 1] : List Nat).getD 0 0 < ([0, 1, 1] : List Nat).getD 2 0 ∧
    ([0, 1, 1] : List Nat).getD 2 0 = ([0, 1, 1] : List Nat).getD 1 0 :=
  ⟨rfl,
   (define_all_addresses [(⟨"a"⟩, 1), (⟨"a"⟩, 2), (⟨"b"⟩, 3)] (Memory.new 3) [0, 1, 1]
      ⟨[1, 3, 0], 3, [(⟨"a"⟩, 0), (⟨"b"⟩, 1)]⟩ rfl).1 2 (⟨"b"⟩, 3) rfl,
   (define_all_addresses [(⟨"a"⟩, 1), (⟨"a"⟩, 2), (⟨"b"⟩, 3)] (Memory.new 3) [0, 1, 1]
      ⟨[1, 3, 0], 3, [(⟨"a"⟩, 0), (⟨"b"⟩, 1)]⟩ rfl).2.1,
   (define_all_addresses [(⟨"a"⟩, 1), (⟨"a"⟩, 2), (⟨"b"⟩, 3)] (Memory.new 3) [0, 1, 1]
      ⟨[1, 3, 0], 3, [(⟨"a"⟩, 0), (⟨"b"⟩, 1)]⟩ rfl).2.2.2.2.2.1 0 2 (⟨"a"⟩, 1)
      (by decide) (by decide) rfl (by simp),
   (define_all_addresses [(⟨"a"⟩, 1), (⟨"a"⟩, 2), (⟨"b"⟩, 3)] (Memory.new 3) [0, 1, 1]
      ⟨[1, 3, 0], 3, [(⟨"a"⟩, 0), (⟨"b"⟩, 1)]⟩ rfl).2.2.2.2.2.2 1 (⟨"a"⟩, 2)
      (by decide) rfl (by simp)⟩

/-- C4 as stated fails: three definitions of the same identifier at capacity 3
all succeed and write the addresses 0, 1, 1, which are not pairwise distinct
(the third definition overwrites the cell written by the second). -/
theorem define_all_repeat_counterexample :
    define_all [(⟨"a"⟩, 1), (⟨"a"⟩, 2), (⟨"a"⟩, 3)] (Memory.new 3).init =
      .ok ([0, 1, 1], ⟨[1, 3, 0], 3, [(⟨"a"⟩, 0)]⟩) ∧
    ¬ ([0, 1, 1] : List Nat).Nodup :=
  ⟨rfl, by decide⟩

/-! ## C5: the invariant of the label table -/

theorem Memory.Inv_of_eq {m m1 : Memory} (h : m.Inv)
    (ht : m1.id_to_address = m.id_to_address) (hl : m1.memory.length = m.memory.length) :
    m1.Inv := by
  unfold Memory.Inv at h ⊢
  rw [ht, hl]
  exact h

theorem Memory.Inv_init (m : Memory) : m.init.Inv := by
  simp [Memory.Inv, Memory.init]

theorem Memory.Inv_define_data {m m1 : Memory} {id : Id} {value : Int} (h : m.Inv)
    (hd : m.define_data id value = .ok m1) : m1.Inv := by
  obtain ⟨hne, hmem, -, hkeys⟩ := Memory.define_data_keys m m1 id value hd
  have hlen : m1.memory.length = m.memory.length := by rw [hmem, List.length_set]
  rcases hkeys with ⟨_, heq⟩ | ⟨_, heq⟩
  · obtain ⟨h1, h2, h3⟩ := h
    refine ⟨?_, ?_, ?_⟩
    · rw [heq, hlen, List.length_append]
      simp only [List.length_singleton]
      omega
    · intro p hp
      rw [heq] at hp ⊢
      rw [List.length_append]
      rcases List.mem_append.1 hp with hp1 | hp1
      · have := h2 p hp1
        omega
      · simp only [List.mem_singleton] at hp1
        subst hp1
        simp
    · rw [heq, List.pairwise_append]
      refine ⟨h3, List.pairwise_singleton _ _, ?_⟩
      intro p hp q hq _
      simp only [List.mem_singleton] at hq
      subst hq
      have := h2 p hp
      simp only
      omega
  · exact Memory.Inv_of_eq h heq hlen

theorem Memory.Inv_set_value {m m1 : Memory} {a : Nat} {v : Int} (h : m.Inv)
    (hs : m.set_value a v = .ok m1) : m1.Inv := by
  obtain ⟨_, rfl⟩ := (Memory.set_value_eq_ok_iff _ _ _ _).1 hs
  exact Memory.Inv_of_eq h rfl (by simp)

theorem Inv_written {c : Computer} (h : c.memory.Inv) (a : Nat) (v : Int) :
    (written c a v).memory.Inv :=
  Memory.Inv_of_eq h rfl (by simp [written])

theorem Mov_execute_Inv (dst : LValue) (src : RValue) (c : Computer) (h : c.memory.Inv) :
    (Mov.execute dst src c).computer.memory.Inv := by
  rcases Mov_execute_cases dst src c with ⟨e, he, _⟩ | ⟨a, old, v, _, _, he⟩
  · rw [he]; exact h
  · rw [he]; exact Inv_written h a v

theorem Instruction_execute_Inv (instr : Instruction) (c : Computer) (h : c.memory.Inv) :
    (instr.execute c).computer.memory.Inv := by
  cases instr with
  | Mov dst src => exact Mov_execute_Inv dst src c h
  | Data id num =>
    simp only [Instruction.execute, Data.execute]
    cases hd : c.memory.define_data id num with
    | error e => exact h
    | ok m1 => exact Memory.Inv_define_data h hd
  | ArithmeticOperation dst val operation =>
    rcases ArithmeticOperation_execute_cases dst val operation c with
      ⟨e, he, _⟩ | ⟨a, old, v, _, _, he⟩
    · simp only [Instruction.execute, he]; exact h
    · simp only [Instruction.execute, he]; exact Inv_written h a _
  | Onez dst =>
    simp only [Instruction.execute, Onez.execute]
    split
    · exact Mov_execute_Inv dst _ c h
    · exact h
  | Ones dst =>
    simp only [Instruction.execute, Ones.execute]
    split
    · exact Mov_execute_Inv dst _ c h
    · exact h

theorem run_pass_Inv (first : Bool) (p : Program) (c : Computer) (h : c.memory.Inv) :
    (run_pass first p c).computer.memory.Inv := by
  induction p generalizing c with
  | nil => exact h
  | cons instr rest ih =>
    by_cases hf : instr.execute_first = first
    · have hi := Instruction_execute_Inv instr c h
      rcases he : instr.execute c with ⟨_ | e, c1⟩
      · rw [he] at hi
        simp only [run_pass, hf, if_true, he]
        exact ih c1 hi
      · rw [he] at hi
        simp only [run_pass, hf, if_true, he]
        exact hi
    · simp only [run_pass, hf, if_false]
      exact ih c h

theorem boot_Inv (c : Computer) (p : Program) : (boot c p).computer.memory.Inv := by
  unfold boot
  have h1 := run_pass_Inv true p { c with memory := c.memory.init } (Memory.Inv_init _)
  rcases he : run_pass true p { c with memory := c.memory.init } with ⟨_ | e, c1⟩
  · rw [he] at h1
    exact run_pass_Inv false p c1 h1
  · rw [he] at h1
    exact h1

theorem Memory.mem_of_address_of {m : Memory} {id : Id} {a : Nat}
    (h : m.address_of id = .ok a) : (id, a) ∈ m.id_to_address := by
  unfold Memory.address_of at h
  cases hl : List.lookup id m.id_to_address with
  | none => simp [hl] at h
  | some b =>
    simp only [hl, Except.ok.injEq] at h
    subst h
    obtain ⟨l1, l2, heq, _⟩ := List.lookup_eq_some_iff.1 hl
    rw [heq]
    simp

/-- C5: the invariant (table size at most the capacity, bound addresses below
the table size, distinct identifiers at distinct addresses) holds after
`init`, is kept by `define_data`, by `set_value`, by `execute` of every
instruction (whether it throws or not) and so holds after every `boot`; under
it, the address of a defined identifier is below the capacity, so reading it
succeeds, and two distinct identifiers never resolve to one address. -/
theorem memory_invariant :
    (∀ m : Memory, m.init.Inv ∧ m.init.memory.length = m.memory_size) ∧
    (∀ (m m1 : Memory) (id : Id) (value : Int),
      m.Inv → m.define_data id value = .ok m1 → m1.Inv) ∧
    (∀ (m m1 : Memory) (a : Nat) (v : Int), m.Inv → m.set_value a v = .ok m1 → m1.Inv) ∧
    (∀ (instr : Instruction) (c : Computer),
      c.memory.Inv → (instr.execute c).computer.memory.Inv) ∧
    (∀ (c : Computer) (p : Program), (boot c p).computer.memory.Inv) ∧
    (∀ (m : Memory) (id : Id) (a : Nat), m.Inv → m.address_of id = .ok a →
      a < m.memory.length ∧ ∃ v, m.read a = .ok v) ∧
    (∀ (m : Memory) (id1 id2 : Id) (a1 a2 : Nat), m.Inv → id1 ≠ id2 →
      m.address_of id1 = .ok a1 → m.address_of id2 = .ok a2 → a1 ≠ a2) := by
  refine ⟨fun m => ⟨Memory.Inv_init m, by simp [Memory.init]⟩,
    fun m m1 id value h hd => Memory.Inv_define_data h hd,
    fun m m1 a v h hs => Memory.Inv_set_value h hs,
    Instruction_execute_Inv, boot_Inv, ?_, ?_⟩
  · intro m id a h ha
    have hlt : a < m.memory.length := by
      have := h.2.1 _ (Memory.mem_of_address_of ha)
      have := h.1
      simp only at *
      omega
    exact ⟨hlt, _, (Memory.read_eq_ok_iff _ _ _).2 ⟨hlt, rfl⟩⟩
  · intro m id1 id2 a1 a2 h hne h1 h2
    have hsym : Symmetric (fun p q : Id × Nat => p.1 ≠ q.1 → p.2 ≠ q.2) :=
      fun p q hpq hqp => (hpq (Ne.symm hqp)).symm
    exact List.Pairwise.forall_of_forall hsym (fun p _ hp => absurd rfl hp) h.2.2
      (Memory.mem_of_address_of h1) (Memory.mem_of_address_of h2) hne

/-- C5 on the memory of capacity 2 holding `x` at address 0: the invariant
holds there, survives a definition of `y`, and `x` resolves in range. -/
theorem memory_invariant_witness :
    Memory.Inv ⟨[4, 0], 2, [(⟨"x"⟩, 0)]⟩ ∧
    Memory.Inv ⟨[4, 9], 2, [(⟨"x"⟩, 0), (⟨"y"⟩, 1)]⟩ ∧
    (0 < 2 ∧ ∃ v, Memory.read ⟨[4, 0], 2, [(⟨"x"⟩, 0)]⟩ 0 = .ok v) :=
  ⟨by decide,
   memory_invariant.2.1 ⟨[4, 0], 2, [(⟨"x"⟩, 0)]⟩ ⟨[4, 9], 2, [(⟨"x"⟩, 0), (⟨"y"⟩, 1)]⟩
     ⟨"y"⟩ 9 (by decide) rfl,
   memory_invariant.2.2.2.2.2.1 ⟨[4, 0], 2, [(⟨"x"⟩, 0)]⟩ ⟨"x"⟩ 0 (by decide) rfl⟩

/-! ## C6: a program of data definitions -/

theorem data_program_first (defs : List (Id × Int)) :
    ∀ instr ∈ data_program defs, instr.execute_first ≠ false := by
  intro instr hi
  simp only [data_program, List.mem_map] at hi
  obtain ⟨d, _, rfl⟩ := hi
  simp [Instruction.execute_first]

theorem boot_data_program_eq (c : Computer) (defs : List (Id × Int)) :
    boot c (data_program defs) =
      run_pass true (data_program defs) { c with memory := c.memory.init } := by
  unfold boot
  rcases run_pass true (data_program defs) { c with memory := c.memory.init } with ⟨_ | e, c1⟩
  · exact run_pass_skip false _ c1 (data_program_first defs)
  · rfl

theorem lookup_zip_range_none (ids : List Id) (id : Id) (l : List Nat) (h : id ∉ ids) :
    (ids.zip l).lookup id = none := by
  rw [lookup_eq_none_iff_not_mem_keys]
  intro hc
  obtain ⟨p, hp, rfl⟩ := List.mem_map.1 hc
  exact h (List.of_mem_zip hp).1

theorem run_pass_data_program (c : Computer) (defs : List (Id × Int))
    (hnd : (defs.map Prod.fst).Nodup) (hk : defs.length ≤ c.memory.memory_size) :
    run_pass true (data_program defs) { c with memory := c.memory.init } =
      ⟨none, defined c defs⟩ := by
  induction defs using List.reverseRecOn with
  | nil => simp [data_program, run_pass, defined, Memory.init]
  | append_singleton defs d ih =>
    rw [List.map_append, List.nodup_append] at hnd
    rw [List.length_append, List.length_singleton] at hk
    have hid : d.1 ∉ defs.map Prod.fst := fun hc =>
      hnd.2.2 hc (by simp)
    rw [data_program, List.map_append, run_pass_append]
    have ih1 := ih hnd.1 (by omega)
    rw [data_program] at ih1
    rw [ih1]
    simp only [List.map_cons, List.map_nil, run_pass, Instruction.execute_first, if_true,
      Instruction.execute]
    have hlen : (defined c defs).memory.id_to_address.length = defs.length := by
      simp [defined]
    have hmem : (defined c defs).memory.memory.length = c.memory.memory_size := by
      simp only [defined, List.length_append, List.length_map, List.length_replicate]
      omega
    rcases Data_execute_cases d.1 d.2 (defined c defs) with ⟨h1, _⟩ | ⟨_, _, he⟩ | ⟨_, hl, _⟩
    · rw [hlen, hmem] at h1
      omega
    · rw [he]
      simp only [hlen]
      congr 2
      simp only [defined, List.map_append, List.map_cons, List.map_nil, List.length_append,
        List.length_singleton]
      congr 1
      · have hset : ∀ (l : List Int) (n : Nat) (v : Int),
            (l ++ List.replicate (n + 1) 0).set l.length v = l ++ [v] ++ List.replicate n 0 := by
          intro l n v
          induction l with
          | nil => simp [List.replicate_succ]
          | cons x xs ihx => simpa using ihx
        have hs := hset (defs.map Prod.snd) (c.memory.memory_size - (defs.length + 1)) d.2
        rw [List.length_map] at hs
        rw [← hs]
        congr 3
        omega
      · rw [List.range_succ, List.zip_append (by simp)]
        simp
    · exact absurd (lookup_zip_range_none _ _ _ hid) hl

theorem lookup_zip_range (ids : List Id) (s n i : Nat) (x : Id) (hnd : ids.Nodup)
    (hn : ids.length ≤ n) (hi : ids[i]? = some x) :
    (ids.zip (List.range' s n)).lookup x = some (s + i) := by
  induction ids generalizing s n i with
  | nil => simp at hi
  | cons y ys ih =>
    obtain ⟨n1, rfl⟩ : ∃ n1, n = n1 + 1 := ⟨n - 1, by simp at hn; omega⟩
    rw [List.range'_succ, List.zip_cons_cons]
    cases i with
    | zero =>
      simp only [List.getElem?_cons_zero, Option.some.injEq] at hi
      subst hi
      simp
    | succ i1 =>
      simp only [List.getElem?_cons_succ] at hi
      have hx : x ∈ ys := List.getElem?_mem hi
      have hxy : (x == y) = false := by
        simp only [beq_eq_false_iff_ne, ne_eq]
        rintro rfl
        exact (List.nodup_cons.1 hnd).1 hx
      simp only [List.lookup, hxy]
      rw [ih (s + 1) n1 i1 (List.nodup_cons.1 hnd).2 (by simp at hn; omega) hi]
      congr 1
      omega

theorem defined_address_of (c : Computer) (defs : List (Id × Int))
    (hnd : (defs.map Prod.fst).Nodup) (i : Nat) (d : Id × Int) (hd : defs[i]? = some d) :
    (defined c defs).memory.address_of d.1 = .ok i := by
  have hi : (defs.map Prod.fst)[i]? = some d.1 := by simp [List.getElem?_map, hd]
  have := lookup_zip_range (defs.map Prod.fst) 0 defs.length i d.1 hnd (by simp) hi
  rw [← List.range_eq_range', Nat.zero_add] at this
  simp only [Memory.address_of, defined, this]

/-- C6: for definitions with pairwise distinct identifiers, `boot` of the
program made of them succeeds exactly when their number `k` is at most the
capacity `N`; then cell `i` holds the value number `i`, the cells from `k` on
hold 0, and the identifier number `i` resolves to `i`; when `k > N` the first
`N` definitions succeed and the next one throws `CapacityExceeded`, leaving
the machine as the first `N` definitions made it. -/
theorem boot_data_program (c : Computer) (defs : List (Id × Int))
    (hnd : (defs.map Prod.fst).Nodup) :
    ((boot c (data_program defs)).error = none ↔ defs.length ≤ c.memory.memory_size) ∧
    (defs.length ≤ c.memory.memory_size →
      (boot c (data_program defs)).computer.memory.memory =
        defs.map Prod.snd ++ List.replicate (c.memory.memory_size - defs.length) 0 ∧
      (boot c (data_program defs)).computer.processor = c.processor ∧
      ∀ i d, defs[i]? = some d →
        (boot c (data_program defs)).computer.memory.address_of d.1 = .ok i) ∧
    (c.memory.memory_size < defs.length →
      (boot c (data_program defs)).error = some .CapacityExceeded ∧
      (boot c (data_program (defs.take c.memory.memory_size))).error = none ∧
      (boot c (data_program defs)).computer =
        (boot c (data_program (defs.take c.memory.memory_size))).computer ∧
      (boot c (data_program defs)).computer.memory.memory =
        (defs.take c.memory.memory_size).map Prod.snd) := by
  have hsucc : ∀ ds : List (Id × Int), (ds.map Prod.fst).Nodup →
      ds.length ≤ c.memory.memory_size → boot c (data_program ds) = ⟨none, defined c ds⟩ :=
    fun ds h1 h2 => by rw [boot_data_program_eq, run_pass_data_program c ds h1 h2]
  have hfail : c.memory.memory_size < defs.length →
      boot c (data_program defs) =
        ⟨some .CapacityExceeded, defined c (defs.take c.memory.memory_size)⟩ := by
    intro hlt
    have hnd1 : ((defs.take c.memory.memory_size).map Prod.fst).Nodup := by
      rw [List.map_take]
      exact List.Nodup.sublist (List.take_sublist _ _) hnd
    have hlen1 : (defs.take c.memory.memory_size).length = c.memory.memory_size := by
      rw [List.length_take]; omega
    obtain ⟨d, rest, hdrop⟩ : ∃ d rest, defs.drop c.memory.memory_size = d :: rest := by
      cases hdr : defs.drop c.memory.memory_size with
      | nil =>
        have := congrArg List.length hdr
        simp at this
        omega
      | cons d rest => exact ⟨d, rest, rfl⟩
    have hsplit : data_program defs =
        data_program (defs.take c.memory.memory_size) ++ data_program (d :: rest) := by
      rw [← hdrop]
      simp only [data_program, ← List.map_append, List.take_append_drop]
    rw [boot_data_program_eq, hsplit, run_pass_append,
      run_pass_data_program c _ hnd1 (Nat.le_of_eq hlen1)]
    simp only [data_program, List.map_cons, run_pass, Instruction.execute_first, if_true,
      Instruction.execute]
    rcases Data_execute_cases d.1 d.2 (defined c (defs.take c.memory.memory_size)) with
      ⟨_, he⟩ | ⟨h1, _⟩ | ⟨h1, _⟩
    · rw [he]
    · exfalso; apply h1
      simp only [defined, List.length_zip, List.length_map, List.length_range, hlen1,
        List.length_append, List.length_replicate]
      omega
    · exfalso; apply h1
      simp only [defined, List.length_zip, List.length_map, List.length_range, hlen1,
        List.length_append, List.length_replicate]
      omega
  refine ⟨?_, ?_, ?_⟩
  · constructor
    · intro h
      by_contra hc
      rw [hfail (by omega)] at h
      simp at h
    · intro h
      rw [hsucc defs hnd h]
  · intro h
    rw [hsucc defs hnd h]
    exact ⟨rfl, rfl, fun i d hd => defined_address_of c defs hnd i d hd⟩
  · intro hlt
    have hnd1 : ((defs.take c.memory.memory_size).map Prod.fst).Nodup := by
      rw [List.map_take]
      exact List.Nodup.sublist (List.take_sublist _ _) hnd
    have hlen1 : (defs.take c.memory.memory_size).length = c.memory.memory_size := by
      rw [List.length_take]; omega
    rw [hfail hlt, hsucc _ hnd1 (Nat.le_of_eq hlen1)]
    refine ⟨rfl, rfl, rfl, ?_⟩
    simp [defined, hlen1]

/-- C6 at capacity 1 with the two definitions `a` and `b`: the second one
throws `CapacityExceeded`; and at capacity 3 both succeed. -/
theorem boot_data_program_witness :
    (boot (Computer.new 1) (data_program [(⟨"a"⟩, 0), (⟨"b"⟩, 0)])).error
      = some .CapacityExceeded ∧
    (boot (Computer.new 1) (data_program [(⟨"a"⟩, 0), (⟨"b"⟩, 0)])).computer.memory
      = ⟨[0], 1, [(⟨"a"⟩, 0)]⟩ ∧
    (boot (Computer.new 3) (data_program [(⟨"a"⟩, 7), (⟨"b"⟩, 8)])).computer.memory.memory
      = [7, 8] ++ List.replicate (3 - 2) 0 :=
  ⟨((boot_data_program (Computer.new 1) [(⟨"a"⟩, 0), (⟨"b"⟩, 0)] (by decide)).2.2
      (by decide)).1,
   by decide,
   ((boot_data_program (Computer.new 3) [(⟨"a"⟩, 7), (⟨"b"⟩, 8)] (by decide)).2.1
      (by decide)).1⟩

/-! ## C7: definitions followed by a move to a label -/

theorem Lea_Mem_execute (c : Computer) (id : Id) (a : Nat) (h : c.memory.address_of id = .ok a)
    (ha : a < c.memory.memory.length) (h64 : a < 2 ^ 64) :
    (LValue.Mem (.Lea id)).execute c = .ok (a, c.memory.memory.getD a 0) := by
  have hr : c.memory.read a = .ok (c.memory.memory.getD a 0) :=
    (Memory.read_eq_ok_iff _ _ _).2 ⟨ha, rfl⟩
  simp only [LValue.execute, RValue.execute, h, toU64_wrap64 a h64, hr]

/-- C7: for definitions with pairwise distinct identifiers, no more than the
capacity (a `uint64_t`), followed by `Mov (Mem (Lea id_j)) (Num v)` where `id_j`
is the identifier of the definition number `j`, `boot` succeeds and the final
memory is the defined values in order, zero-padded to the capacity, with cell
`j` replaced by `v`; the label table and the flags are as the definitions
left them. -/
theorem boot_data_then_mov (c : Computer) (defs : List (Id × Int)) (j : Nat) (d : Id × Int)
    (v : Int) (hnd : (defs.map Prod.fst).Nodup) (hk : defs.length ≤ c.memory.memory_size)
    (hcap : c.memory.memory_size < 2 ^ 64) (hd : defs[j]? = some d) :
    (boot c (data_program defs ++ [.Mov (.Mem (.Lea d.1)) (.Num v)])).error = none ∧
    (boot c (data_program defs ++ [.Mov (.Mem (.Lea d.1)) (.Num v)])).computer.memory.memory =
      (defs.map Prod.snd ++ List.replicate (c.memory.memory_size - defs.length) 0).set j v ∧
    (boot c (data_program defs ++ [.Mov (.Mem (.Lea d.1)) (.Num v)])).computer =
      written (defined c defs) j v := by
  have hj : j < defs.length := by
    obtain ⟨h, _⟩ := List.getElem?_eq_some.1 hd
    exact h
  have hmem : (defined c defs).memory.memory.length = c.memory.memory_size := by
    simp only [defined, List.length_append, List.length_map, List.length_replicate]
    omega
  have hdst := Lea_Mem_execute (defined c defs) d.1 j (defined_address_of c defs hnd j d hd)
    (by omega) (by omega)
  have hmov : Mov.execute (.Mem (.Lea d.1)) (.Num v) (defined c defs) =
      ⟨none, written (defined c defs) j v⟩ := by
    rcases Mov_execute_cases (.Mem (.Lea d.1)) (.Num v) (defined c defs) with
      ⟨e, _, h1 | ⟨_, h1⟩⟩ | ⟨a, old, w, h1, h2, he⟩
    · rw [hdst] at h1; cases h1
    · simp [RValue.execute] at h1
    · rw [hdst] at h1
      simp only [RValue.execute, Except.ok.injEq, Prod.mk.injEq] at h1 h2
      rw [he, ← h1.1, ← h2]
  have hboot : boot c (data_program defs ++ [.Mov (.Mem (.Lea d.1)) (.Num v)]) =
      ⟨none, written (defined c defs) j v⟩ := by
    unfold boot
    rw [run_pass_append, run_pass_data_program c defs hnd hk]
    simp only [run_pass, Instruction.execute_first, Bool.false_eq_true, if_false]
    rw [run_pass_append, run_pass_skip false _ _ (data_program_first defs)]
    simp only [run_pass, Instruction.execute_first, if_true, Instruction.execute, hmov]
  rw [hboot]
  exact ⟨rfl, rfl, rfl⟩

/-- C7 on the scenario of the specification: capacity 4, `x = 10`, `y = 20`,
then `Mov (Mem (Lea x)) (Num 5)`; the memory ends as 5, 20, 0, 0. -/
theorem boot_data_then_mov_witness :
    (boot (Computer.new 4)
      [.Data ⟨"x"⟩ 10, .Data ⟨"y"⟩ 20, .Mov (.Mem (.Lea ⟨"x"⟩)) (.Num 5)]).error = none ∧
    (boot (Computer.new 4)
      [.Data ⟨"x"⟩ 10, .Data ⟨"y"⟩ 20, .Mov (.Mem (.Lea ⟨"x"⟩)) (.Num 5)]).computer.memory.memory
        = [5, 20, 0, 0] :=
  ⟨(boot_data_then_mov (Computer.new 4) [(⟨"x"⟩, 10), (⟨"y"⟩, 20)] 0 (⟨"x"⟩, 10) 5
      (by decide) (by decide) (by decide) rfl).1,
   (boot_data_then_mov (Computer.new 4) [(⟨"x"⟩, 10), (⟨"y"⟩, 20)] 0 (⟨"x"⟩, 10) 5
      (by decide) (by decide) (by decide) rfl).2.1⟩

/-! ## C8: `Mov` -/

theorem read_written (c : Computer) (a b : Nat) (v : Int) :
    (written c a v).memory.read b =
      if a = b ∧ a < c.memory.memory.length then .ok v else c.memory.read b :=
  Memory.read_set c.memory a b v

theorem Mem_Num_execute (c : Computer) (a : Nat) (v : Int) (h64 : a < 2 ^ 64)
    (hr : c.memory.read a = .ok v) :
    (RValue.Mem (.Num (wrap64 a))).execute c = .ok v ∧
    (LValue.Mem (.Num (wrap64 a))).execute c = .ok (a, v) := by
  simp only [RValue.execute, LValue.execute, toU64_wrap64 a h64, hr, and_self]

/-- C8: when `Mov dst src` executes without exception, with `a` the address
`dst` resolved to and `v` the value of `src` in the state before: afterwards a
fresh `Mem (Num a)` evaluates to `v` (at address `a`), every other cell reads
as before, and the label table, the capacity and both flags are unchanged. -/
theorem mov_spec (c c1 : Computer) (dst : LValue) (src : RValue)
    (h : (Instruction.Mov dst src).execute c = ⟨none, c1⟩) :
    ∃ a old v, dst.execute c = .ok (a, old) ∧ src.execute c = .ok v ∧
      (RValue.Mem (.Num (wrap64 a))).execute c1 = .ok v ∧
      (LValue.Mem (.Num (wrap64 a))).execute c1 = .ok (a, v) ∧
      c1.memory.read a = .ok v ∧
      (∀ b, b ≠ a → c1.memory.read b = c.memory.read b) ∧
      c1.memory.memory = c.memory.memory.set a v ∧
      c1.memory.id_to_address = c.memory.id_to_address ∧
      c1.memory.memory_size = c.memory.memory_size ∧
      c1.processor = c.processor := by
  simp only [Instruction.execute] at h
  rcases Mov_execute_cases dst src c with ⟨e, he, _⟩ | ⟨a, old, v, hd, hs, he⟩
  · rw [he] at h; simp at h
  · rw [he] at h
    simp only [Outcome.mk.injEq, true_and] at h
    subst h
    have ha := LValue.execute_ok hd
    have hr : (written c a v).memory.read a = .ok v := by
      rw [read_written]; simp [ha.1]
    obtain ⟨hm1, hm2⟩ := Mem_Num_execute (written c a v) a v ha.2.2 hr
    refine ⟨a, old, v, hd, hs, hm1, hm2, hr, ?_, rfl, rfl, rfl, rfl⟩
    intro b hb
    rw [read_written]
    simp [Ne.symm hb]

/-- C8 on the memory 4, 9 of capacity 2: `Mov (Mem (Num 1)) (Mem (Num 0))`
copies cell 0 into cell 1. -/
theorem mov_spec_witness :
    (Instruction.Mov (.Mem (.Num 1)) (.Mem (.Num 0))).execute ⟨⟨true, false⟩, ⟨[4, 9], 2, []⟩⟩ =
      ⟨none, ⟨⟨true, false⟩, ⟨[4, 4], 2, []⟩⟩⟩ ∧
    ∃ a old v, (LValue.Mem (.Num 1)).execute ⟨⟨true, false⟩, ⟨[4, 9], 2, []⟩⟩ = .ok (a, old) ∧
      (RValue.Mem (.Num 0)).execute ⟨⟨true, false⟩, ⟨[4, 9], 2, []⟩⟩ = .ok v ∧
      (RValue.Mem (.Num (wrap64 a))).execute ⟨⟨true, false⟩, ⟨[4, 4], 2, []⟩⟩ = .ok v ∧
      (LValue.Mem (.Num (wrap64 a))).execute ⟨⟨true, false⟩, ⟨[4, 4], 2, []⟩⟩ = .ok (a, v) ∧
      Memory.read ⟨[4, 4], 2, []⟩ a = .ok v ∧
      (∀ b, b ≠ a → Memory.read ⟨[4, 4], 2, []⟩ b = Memory.read ⟨[4, 9], 2, []⟩ b) ∧
      ([4, 4] : List Int) = ([4, 9] : List Int).set a v ∧
      ([] : List (Id × Nat)) = [] ∧ (2 : Nat) = 2 ∧
      (⟨true, false⟩ : Processor) = ⟨true, false⟩ :=
  ⟨rfl, mov_spec ⟨⟨true, false⟩, ⟨[4, 9], 2, []⟩⟩ ⟨⟨true, false⟩, ⟨[4, 4], 2, []⟩⟩
    (.Mem (.Num 1)) (.Mem (.Num 0)) rfl⟩

/-! ## C9: `Add` and `Sub` -/

theorem wrap64_congruent (x : Int) : (wrap64 x - x) % 2 ^ 64 = 0 := by
  unfold wrap64
  omega

theorem arithmetic_spec (c c1 : Computer) (dst : LValue) (val : RValue)
    (operation : Int → Int → Int)
    (h : (Instruction.ArithmeticOperation dst val operation).execute c = ⟨none, c1⟩) :
    ∃ a old v, dst.execute c = .ok (a, old) ∧ c.memory.read a = .ok old ∧
      val.execute c = .ok v ∧
      c1.memory.read a = .ok (operation old v) ∧
      (∀ b, b ≠ a → c1.memory.read b = c.memory.read b) ∧
      c1.memory.memory = c.memory.memory.set a (operation old v) ∧
      c1.memory.id_to_address = c.memory.id_to_address ∧
      c1.memory.memory_size = c.memory.memory_size ∧
      c1.processor = ⟨decide (operation old v = 0), decide (operation old v < 0)⟩ := by
  simp only [Instruction.execute] at h
  rcases ArithmeticOperation_execute_cases dst val operation c with
    ⟨e, he, _⟩ | ⟨a, old, v, hd, hs, he⟩
  · rw [he] at h; simp at h
  · rw [he] at h
    simp only [Outcome.mk.injEq, true_and] at h
    subst h
    have ha := LValue.execute_ok hd
    have hr0 : c.memory.read a = .ok old := (Memory.read_eq_ok_iff _ _ _).2 ⟨ha.1, ha.2.1⟩
    refine ⟨a, old, v, hd, hr0, hs, ?_, ?_, rfl, rfl, rfl, rfl⟩
    · simp only
      rw [read_written]; simp [ha.1]
    · intro b hb
      simp only
      rw [read_written]
      simp [Ne.symm hb]

/-- C9: when `Add dst val` (resp. `Sub dst val`) executes without exception,
with `a` the address of `dst`, `old` the content of cell `a` and `v` the value
of `val` before: afterwards cell `a` holds `old + v` (resp. `old - v`) reduced
to `int64_t`, that is the number of the signed 64-bit range congruent to it
modulo `2 ^ 64`; every other cell reads as before and the label table is
unchanged. Adding 1 to a cell holding `2 ^ 63 - 1` yields `-2 ^ 63`. -/
theorem add_sub_spec (c c1 : Computer) (dst : LValue) (val : RValue) :
    ((Instruction.Add dst val).execute c = ⟨none, c1⟩ →
      ∃ a old v n, dst.execute c = .ok (a, old) ∧ c.memory.read a = .ok old ∧
        val.execute c = .ok v ∧ c1.memory.read a = .ok n ∧ n = wrap64 (old + v) ∧
        (-2 ^ 63 ≤ n ∧ n < 2 ^ 63 ∧ (n - (old + v)) % 2 ^ 64 = 0) ∧
        (∀ b, b ≠ a → c1.memory.read b = c.memory.read b) ∧
        c1.memory.memory = c.memory.memory.set a n ∧
        c1.memory.id_to_address = c.memory.id_to_address) ∧
    ((Instruction.Sub dst val).execute c = ⟨none, c1⟩ →
      ∃ a old v n, dst.execute c = .ok (a, old) ∧ c.memory.read a = .ok old ∧
        val.execute c = .ok v ∧ c1.memory.read a = .ok n ∧ n = wrap64 (old - v) ∧
        (-2 ^ 63 ≤ n ∧ n < 2 ^ 63 ∧ (n - (old - v)) % 2 ^ 64 = 0) ∧
        (∀ b, b ≠ a → c1.memory.read b = c.memory.read b) ∧
        c1.memory.memory = c.memory.memory.set a n ∧
        c1.memory.id_to_address = c.memory.id_to_address) ∧
    (Instruction.Add (.Mem (.Num 0)) (.Num 1)).execute ⟨⟨false, false⟩, ⟨[2 ^ 63 - 1], 1, []⟩⟩ =
      ⟨none, ⟨⟨false, true⟩, ⟨[-2 ^ 63], 1, []⟩⟩⟩ := by
  refine ⟨?_, ?_, by decide⟩
  · intro h
    obtain ⟨a, old, v, h1, h2, h3, h4, h5, h6, h7, -, -⟩ :=
      arithmetic_spec c c1 dst val _ h
    exact ⟨a, old, v, _, h1, h2, h3, h4, rfl,
      ⟨(wrap64_range _).1, (wrap64_range _).2, wrap64_congruent _⟩, h5, h6, h7⟩
  · intro h
    obtain ⟨a, old, v, h1, h2, h3, h4, h5, h6, h7, -, -⟩ :=
      arithmetic_spec c c1 dst val _ h
    exact ⟨a, old, v, _, h1, h2, h3, h4, rfl,
      ⟨(wrap64_range _).1, (wrap64_range _).2, wrap64_congruent _⟩, h5, h6, h7⟩

/-- C9 on one cell holding `2 ^ 63 - 1`: `Add` of 1 wraps to `-2 ^ 63`, and
`Sub` of 1 from a cell holding `-2 ^ 63` wraps to `2 ^ 63 - 1`. -/
theorem add_sub_spec_witness :
    (∃ a old v n,
      (LValue.Mem (.Num 0)).execute ⟨⟨false, false⟩, ⟨[2 ^ 63 - 1], 1, []⟩⟩ = .ok (a, old) ∧
      Memory.read ⟨[2 ^ 63 - 1], 1, []⟩ a = .ok old ∧
      (RValue.Num 1).execute ⟨⟨false, false⟩, ⟨[2 ^ 63 - 1], 1, []⟩⟩ = .ok v ∧
      Memory.read ⟨[-2 ^ 63], 1, []⟩ a = .ok n ∧ n = wrap64 (old + v) ∧
      (-2 ^ 63 ≤ n ∧ n < 2 ^ 63 ∧ (n - (old + v)) % 2 ^ 64 = 0) ∧
      (∀ b, b ≠ a → Memory.read ⟨[-2 ^ 63], 1, []⟩ b = Memory.read ⟨[2 ^ 63 - 1], 1, []⟩ b) ∧
      ([-2 ^ 63] : List Int) = ([2 ^ 63 - 1] : List Int).set a n ∧
      ([] : List (Id × Nat)) = []) ∧
    (∃ a old v n,
      (LValue.Mem (.Num 0)).execute ⟨⟨false, true⟩, ⟨[-2 ^ 63], 1, []⟩⟩ = .ok (a, old) ∧
      Memory.read ⟨[-2 ^ 63], 1, []⟩ a = .ok old ∧
      (RValue.Num 1).execute ⟨⟨false, true⟩, ⟨[-2 ^ 63], 1, []⟩⟩ = .ok v ∧
      Memory.read ⟨[2 ^ 63 - 1], 1, []⟩ a = .ok n ∧ n = wrap64 (old - v) ∧
      (-2 ^ 63 ≤ n ∧ n < 2 ^ 63 ∧ (n - (old - v)) % 2 ^ 64 = 0) ∧
      (∀ b, b ≠ a → Memory.read ⟨[2 ^ 63 - 1], 1, []⟩ b = Memory.read ⟨[-2 ^ 63], 1, []⟩ b) ∧
      ([2 ^ 63 - 1] : List Int) = ([-2 ^ 63] : List Int).set a n ∧
      ([] : List (Id × Nat)) = []) :=
  ⟨(add_sub_spec ⟨⟨false, false⟩, ⟨[2 ^ 63 - 1], 1, []⟩⟩ ⟨⟨false, true⟩, ⟨[-2 ^ 63], 1, []⟩⟩
      (.Mem (.Num 0)) (.Num 1)).1 (by decide),
   (add_sub_spec ⟨⟨false, true⟩, ⟨[-2 ^ 63], 1, []⟩⟩ ⟨⟨false, false⟩, ⟨[2 ^ 63 - 1], 1, []⟩⟩
      (.Mem (.Num 0)) (.Num 1)).2.1 (by decide)⟩

/-! ## C10: the flags after an arithmetic instruction -/

/-- C10: when an `ArithmeticOperation` executes without exception, whatever
the flags were, with `w` the value it wrote to the destination cell: the zero
flag is set exactly when `w = 0` and the sign flag exactly when `w < 0`; so a
result 0 leaves zero set and sign cleared. -/
theorem arithmetic_flags (c c1 : Computer) (dst : LValue) (val : RValue)
    (operation : Int → Int → Int)
    (h : (Instruction.ArithmeticOperation dst val operation).execute c = ⟨none, c1⟩) :
    ∃ a old w, dst.execute c = .ok (a, old) ∧ c1.memory.read a = .ok w ∧
      (c1.processor.zero_flag = true ↔ w = 0) ∧
      (c1.processor.sign_flag = true ↔ w < 0) ∧
      (w = 0 → c1.processor.zero_flag = true ∧ c1.processor.sign_flag = false) ∧
      (w < 0 → c1.processor.sign_flag = true ∧ c1.processor.zero_flag = false) := by
  obtain ⟨a, old, v, h1, -, -, h4, -, -, -, -, h9⟩ := arithmetic_spec c c1 dst val operation h
  refine ⟨a, old, operation old v, h1, h4, ?_, ?_, ?_, ?_⟩
  · rw [h9]; simp
  · rw [h9]; simp
  · intro hw; rw [h9, hw]; simp
  · intro hw
    rw [h9]
    simp only [decide_eq_true_eq, decide_eq_false_iff_not]
    exact ⟨hw, by omega⟩

/-- C10 on the scenario of the specification: capacity 2, `a = 1`, then
`Sub (Mem (Lea a)) (Num 1)`; cell 0 ends as 0 with zero set and sign cleared,
also when both flags were set before `boot`. -/
theorem arithmetic_flags_witness :
    boot ⟨⟨true, true⟩, Memory.new 2⟩ [.Data ⟨"a"⟩ 1, .Sub (.Mem (.Lea ⟨"a"⟩)) (.Num 1)] =
      ⟨none, ⟨⟨true, false⟩, ⟨[0, 0], 2, [(⟨"a"⟩, 0)]⟩⟩⟩ ∧
    boot (Computer.new 2) [.Data ⟨"a"⟩ 1, .Sub (.Mem (.Lea ⟨"a"⟩)) (.Num 1)] =
      ⟨none, ⟨⟨true, false⟩, ⟨[0, 0], 2, [(⟨"a"⟩, 0)]⟩⟩⟩ ∧
    ∃ a old w,
      (LValue.Mem (.Lea ⟨"a"⟩)).execute ⟨⟨true, true⟩, ⟨[1, 0], 2, [(⟨"a"⟩, 0)]⟩⟩ = .ok (a, old) ∧
      Memory.read ⟨[0, 0], 2, [(⟨"a"⟩, 0)]⟩ a = .ok w ∧
      ((⟨true, false⟩ : Processor).zero_flag = true ↔ w = 0) ∧
      ((⟨true, false⟩ : Processor).sign_flag = true ↔ w < 0) ∧
      (w = 0 → (⟨true, false⟩ : Processor).zero_flag = true ∧
        (⟨true, false⟩ : Processor).sign_flag = false) ∧
      (w < 0 → (⟨true, false⟩ : Processor).sign_flag = true ∧
        (⟨true, false⟩ : Processor).zero_flag = false) :=
  ⟨by decide, by decide,
   arithmetic_flags ⟨⟨true, true⟩, ⟨[1, 0], 2, [(⟨"a"⟩, 0)]⟩⟩
     ⟨⟨true, false⟩, ⟨[0, 0], 2, [(⟨"a"⟩, 0)]⟩⟩ (.Mem (.Lea ⟨"a"⟩)) (.Num 1)
     (fun val_1 val_2 => wrap64 (val_1 - val_2)) (by decide)⟩

/-! ## C11: the conditional moves -/

/-- C11: when the zero flag is set, `Onez dst` has exactly the outcome of
`Mov dst (Num 1)` (same exception or same machine afterwards); when it is
clear, `Onez dst` throws nothing and leaves the machine as it was, whatever
`dst` is, also when evaluating `dst` would throw. The same holds for `Ones`
with the sign flag. -/
theorem conditional_move (c : Computer) (dst : LValue) :
    (c.processor.zero_flag = true →
      (Instruction.Onez dst).execute c = (Instruction.Mov dst (.Num 1)).execute c) ∧
    (c.processor.zero_flag = false →
      (Instruction.Onez dst).execute c = ⟨none, c⟩ ∧
      ∀ e, dst.execute c = .error e → (Instruction.Onez dst).execute c = ⟨none, c⟩) ∧
    (c.processor.sign_flag = true →
      (Instruction.Ones dst).execute c = (Instruction.Mov dst (.Num 1)).execute c) ∧
    (c.processor.sign_flag = false →
      (Instruction.Ones dst).execute c = ⟨none, c⟩ ∧
      ∀ e, dst.execute c = .error e → (Instruction.Ones dst).execute c = ⟨none, c⟩) := by
  refine ⟨?_, ?_, ?_, ?_⟩
  · intro h
    simp only [Instruction.execute, Onez.execute, h, if_true]
  · intro h
    have : (Instruction.Onez dst).execute c = ⟨none, c⟩ := by
      simp [Instruction.execute, Onez.execute, h]
    exact ⟨this, fun _ _ => this⟩
  · intro h
    simp only [Instruction.execute, Ones.execute, h, if_true]
  · intro h
    have : (Instruction.Ones dst).execute c = ⟨none, c⟩ := by
      simp [Instruction.execute, Ones.execute, h]
    exact ⟨this, fun _ _ => this⟩

/-- C11 at capacity 2: with the flag clear, a conditional move whose
destination is out of range (resp. an undefined label) throws nothing and
changes nothing, while the plain `Mov` throws; with the flag set, `Onez`
writes 1 as the `Mov` does. -/
theorem conditional_move_witness :
    (LValue.Mem (.Num 2)).execute ⟨⟨false, false⟩, ⟨[7, 8], 2, []⟩⟩ = .error .OutOfRange ∧
    (Instruction.Mov (.Mem (.Num 2)) (.Num 1)).execute ⟨⟨false, false⟩, ⟨[7, 8], 2, []⟩⟩ =
      ⟨some .OutOfRange, ⟨⟨false, false⟩, ⟨[7, 8], 2, []⟩⟩⟩ ∧
    (Instruction.Onez (.Mem (.Num 2))).execute ⟨⟨false, false⟩, ⟨[7, 8], 2, []⟩⟩ =
      ⟨none, ⟨⟨false, false⟩, ⟨[7, 8], 2, []⟩⟩⟩ ∧
    (LValue.Mem (.Lea ⟨"u"⟩)).execute ⟨⟨false, false⟩, ⟨[7, 8], 2, []⟩⟩ =
      .error .UndefinedLabel ∧
    (Instruction.Ones (.Mem (.Lea ⟨"u"⟩))).execute ⟨⟨false, false⟩, ⟨[7, 8], 2, []⟩⟩ =
      ⟨none, ⟨⟨false, false⟩, ⟨[7, 8], 2, []⟩⟩⟩ ∧
    (Instruction.Onez (.Mem (.Num 1))).execute ⟨⟨true, false⟩, ⟨[7, 8], 2, []⟩⟩ =
      (Instruction.Mov (.Mem (.Num 1)) (.Num 1)).execute ⟨⟨true, false⟩, ⟨[7, 8], 2, []⟩⟩ ∧
    (Instruction.Onez (.Mem (.Num 1))).execute ⟨⟨true, false⟩, ⟨[7, 8], 2, []⟩⟩ =
      ⟨none, ⟨⟨true, false⟩, ⟨[7, 1], 2, []⟩⟩⟩ :=
  ⟨rfl, by decide,
   ((conditional_move ⟨⟨false, false⟩, ⟨[7, 8], 2, []⟩⟩ (.Mem (.Num 2))).2.1 rfl).2
     .OutOfRange rfl,
   rfl,
   ((conditional_move ⟨⟨false, false⟩, ⟨[7, 8], 2, []⟩⟩ (.Mem (.Lea ⟨"u"⟩))).2.2.2 rfl).2
     .UndefinedLabel rfl,
   (conditional_move ⟨⟨true, false⟩, ⟨[7, 8], 2, []⟩⟩ (.Mem (.Num 1))).1 rfl,
   by decide⟩

/-! ## C12: accesses out of range -/

/-- C12: in a memory that has no more cells than its capacity (a memory just
constructed, or one after `init`; the property is kept by `set_value` and
`define_data`), `read` and `set_value` throw `OutOfRange` at every address at
or above the capacity, the throw coming before any store; after `init`, `read`
and `set_value` succeed at every address below the capacity. -/
theorem out_of_range_access (m : Memory) (hlen : m.memory.length ≤ m.memory_size) :
    (∀ address value, m.memory_size ≤ address →
      m.read address = .error .OutOfRange ∧
      m.set_value address value = .error .OutOfRange) ∧
    (∀ address value, address < m.memory_size →
      m.init.read address = .ok 0 ∧
      ∃ m1, m.init.set_value address value = .ok m1 ∧ m1.read address = .ok value) ∧
    ((Memory.new m.memory_size).memory.length ≤ (Memory.new m.memory_size).memory_size ∧
      m.init.memory.length ≤ m.init.memory_size ∧
      (∀ m1 address value, m.set_value address value = .ok m1 →
        m1.memory.length ≤ m1.memory_size) ∧
      (∀ m1 id value, m.define_data id value = .ok m1 →
        m1.memory.length ≤ m1.memory_size)) := by
  refine ⟨?_, ?_, ?_, ?_, ?_, ?_⟩
  · intro address value h
    exact ⟨(Memory.read_eq_error_iff _ _ _).2 ⟨by omega, rfl⟩,
      (Memory.set_value_eq_error_iff _ _ _ _).2 ⟨by omega, rfl⟩⟩
  · intro address value h
    have hl : address < m.init.memory.length := by simp [Memory.init, h]
    refine ⟨(Memory.read_eq_ok_iff _ _ _).2 ⟨hl, ?_⟩, _,
      (Memory.set_value_eq_ok_iff _ _ _ _).2 ⟨hl, rfl⟩, ?_⟩
    · simp [Memory.init, List.getD_eq_getElem?_getD, List.getElem?_replicate, h]
    · rw [Memory.read_set]
      simp [hl]
  · simp [Memory.new]
  · simp [Memory.init]
  · intro m1 address value h
    obtain ⟨_, rfl⟩ := (Memory.set_value_eq_ok_iff _ _ _ _).1 h
    simpa using hlen
  · intro m1 id value h
    obtain ⟨_, h1, h2, _⟩ := Memory.define_data_keys m m1 id value h
    rw [h1, h2, List.length_set]
    exact hlen

/-- C12 at capacity 2: address 2 is out of range for `read` and `set_value`,
before and after `init`; addresses 0 and 1 are readable and writable after
`init`. -/
theorem out_of_range_access_witness :
    (Memory.new 2).memory.length ≤ (Memory.new 2).memory_size ∧
    (Memory.new 2).init.memory.length ≤ (Memory.new 2).init.memory_size ∧
    ((Memory.new 2).read 2 = .error .OutOfRange ∧
      (Memory.new 2).set_value 2 5 = .error .OutOfRange) ∧
    ((Memory.new 2).init.read 2 = .error .OutOfRange ∧
      (Memory.new 2).init.set_value 2 5 = .error .OutOfRange) ∧
    ((Memory.new 2).init.read 1 = .ok 0 ∧
      ∃ m1, (Memory.new 2).init.set_value 1 5 = .ok m1 ∧ m1.read 1 = .ok 5) :=
  ⟨by decide, by decide,
   (out_of_range_access (Memory.new 2) (by decide)).1 2 5 (by decide),
   (out_of_range_access (Memory.new 2).init (by decide)).1 2 5 (by decide),
   (out_of_range_access (Memory.new 2) (by decide)).2.1 1 5 (by decide)⟩

/-! ## C13: the memory after `init` -/

/-- C13: whatever the memory was, after `init` it has exactly `memory_size`
cells, every cell reads 0, and `address_of` throws `UndefinedLabel` for every
identifier. -/
theorem init_spec (m : Memory) :
    m.init.memory.length = m.memory_size ∧
    m.init.memory_size = m.memory_size ∧
    m.init.memory = List.replicate m.memory_size 0 ∧
    (∀ address, address < m.memory_size → m.init.read address = .ok 0) ∧
    (∀ address, m.memory_size ≤ address → m.init.read address = .error .OutOfRange) ∧
    m.init.id_to_address = [] ∧
    (∀ id, m.init.address_of id = .error .UndefinedLabel) := by
  refine ⟨by simp [Memory.init], rfl, rfl, ?_, ?_, rfl, ?_⟩
  · intro address h
    refine (Memory.read_eq_ok_iff _ _ _).2 ⟨by simp [Memory.init, h], ?_⟩
    simp [Memory.init, List.getD_eq_getElem?_getD, List.getElem?_replicate, h]
  · intro address h
    exact (Memory.read_eq_error_iff _ _ _).2 ⟨by simp [Memory.init, h], rfl⟩
  · intro id
    simp [Memory.address_of, Memory.init]

/-- C13 on a used memory of capacity 3: `init` gives three cells reading 0 and
forgets the label. -/
theorem init_spec_witness :
    (Memory.init ⟨[4, 9], 3, [(⟨"x"⟩, 0)]⟩).memory.length = 3 ∧
    (Memory.init ⟨[4, 9], 3, [(⟨"x"⟩, 0)]⟩).read 2 = .ok 0 ∧
    (Memory.init ⟨[4, 9], 3, [(⟨"x"⟩, 0)]⟩).address_of ⟨"x"⟩ = .error .UndefinedLabel :=
  ⟨(init_spec ⟨[4, 9], 3, [(⟨"x"⟩, 0)]⟩).1,
   (init_spec ⟨[4, 9], 3, [(⟨"x"⟩, 0)]⟩).2.2.2.1 2 (by decide),
   (init_spec ⟨[4, 9], 3, [(⟨"x"⟩, 0)]⟩).2.2.2.2.2.2 ⟨"x"⟩⟩

/-! ## C14: construction of an identifier -/

/-- C14: `Id.new s` succeeds exactly when the length of `s` (in bytes, as
`std::string::length`) is between 1 and 10; it throws `InvalidIdentifier`, and
nothing else, when the length is 0 or above 10; the identifier built holds
exactly `s`. -/
theorem id_new_spec (s : String) :
    ((∃ i, Id.new s = .ok i) ↔ (1 ≤ s.utf8ByteSize ∧ s.utf8ByteSize ≤ 10)) ∧
    ((s.utf8ByteSize = 0 ∨ 10 < s.utf8ByteSize) → Id.new s = .error .InvalidIdentifier) ∧
    (∀ e, Id.new s = .error e →
      e = .InvalidIdentifier ∧ (s.utf8ByteSize = 0 ∨ 10 < s.utf8ByteSize)) ∧
    (∀ i, Id.new s = .ok i → i.id = s) := by
  unfold Id.new Id.min_id_len Id.max_id_len
  by_cases h : s.utf8ByteSize < 1 ∨ s.utf8ByteSize > 10
  · simp only [h, if_true]
    refine ⟨?_, ?_, ?_, ?_⟩
    · constructor
      · rintro ⟨i, hi⟩; cases hi
      · intro h1; omega
    · intro _; trivial
    · intro e he
      cases he
      exact ⟨rfl, by omega⟩
    · intro i hi; cases hi
  · simp only [h, if_false]
    refine ⟨?_, ?_, ?_, ?_⟩
    · constructor
      · intro _; omega
      · intro _; exact ⟨_, rfl⟩
    · intro h1; omega
    · intro e he; cases he
    · intro i hi
      cases hi
      rfl

/-- C14 on the empty string, on strings of 1, 10 and 11 letters. -/
theorem id_new_spec_witness :
    Id.new "" = .error .InvalidIdentifier ∧
    Id.new "x" = .ok ⟨"x"⟩ ∧
    Id.new "abcdefghij" = .ok ⟨"abcdefghij"⟩ ∧
    Id.new "abcdefghijk" = .error .InvalidIdentifier :=
  ⟨(id_new_spec "").2.1 (Or.inl rfl), rfl, rfl,
   (id_new_spec "abcdefghijk").2.1 (Or.inr (by decide))⟩

/-! ## C15: the flags across `boot` -/

theorem execute_processor_of_not_arithmetic (instr : Instruction) (c : Computer)
    (h : instr.is_arithmetic = false) :
    (instr.execute c).computer.processor = c.processor := by
  cases instr with
  | ArithmeticOperation dst val operation => simp [Instruction.is_arithmetic] at h
  | Mov dst src =>
    rcases Mov_execute_cases dst src c with ⟨e, he, _⟩ | ⟨a, old, v, _, _, he⟩ <;>
      simp [Instruction.execute, he, written]
  | Data id num =>
    rcases Data_execute_cases id num c with ⟨_, he⟩ | ⟨_, _, he⟩ | ⟨_, _, he⟩ <;>
      simp [Instruction.execute, he, written]
  | Onez dst =>
    simp only [Instruction.execute, Onez.execute]
    split
    · rcases Mov_execute_cases dst (.Num 1) c with ⟨e, he, _⟩ | ⟨a, old, v, _, _, he⟩ <;>
        simp [he, written]
    · rfl
  | Ones dst =>
    simp only [Instruction.execute, Ones.execute]
    split
    · rcases Mov_execute_cases dst (.Num 1) c with ⟨e, he, _⟩ | ⟨a, old, v, _, _, he⟩ <;>
        simp [he, written]
    · rfl

theorem run_pass_processor (first : Bool) (p : Program) (c : Computer)
    (h : ∀ instr ∈ p, instr.execute_first = first → instr.is_arithmetic = false) :
    (run_pass first p c).computer.processor = c.processor := by
  induction p generalizing c with
  | nil => rfl
  | cons instr rest ih =>
    have hrest : ∀ i ∈ rest, i.execute_first = first → i.is_arithmetic = false :=
      fun i hi => h i (List.mem_cons_of_mem _ hi)
    by_cases hf : instr.execute_first = first
    · have hp := execute_processor_of_not_arithmetic instr c
        (h instr (List.mem_cons_self _ _) hf)
      rcases he : instr.execute c with ⟨_ | e, c1⟩
      · rw [he] at hp
        simp only [run_pass, hf, if_true, he]
        rw [ih c1 hrest]
        exact hp
      · rw [he] at hp
        simp only [run_pass, hf, if_true, he]
        exact hp
    · simp only [run_pass, hf, if_false]
      exact ih c hrest

theorem run_pass_true_processor (p : Program) (c : Computer) :
    (run_pass true p c).computer.processor = c.processor := by
  apply run_pass_processor
  intro instr _ hf
  cases instr <;> first | rfl | simp [Instruction.execute_first] at hf

theorem run_pass_false_head (pre post : Program) (instr : Instruction) (c : Computer)
    (hpre : ∀ i ∈ pre, i.execute_first = true) (hinstr : instr.execute_first = false) :
    run_pass false (pre ++ instr :: post) c =
      match instr.execute c with
      | ⟨some e, c2⟩ => ⟨some e, c2⟩
      | ⟨none, c2⟩ => run_pass false post c2 := by
  rw [run_pass_append, run_pass_skip false pre c (fun i hi => by simp [hpre i hi])]
  simp only [run_pass, hinstr, if_true]

/-- C15: `boot` does not reset the flags. For a program without
`ArithmeticOperation`, both flags after `boot`, thrown or not, are those held
before the call. For any program, the first pass leaves the flags as they were,
so the first instruction of the second pass executes with the flags held
before `boot`. -/
theorem boot_flags (c : Computer) (p : Program) :
    ((∀ instr ∈ p, instr.is_arithmetic = false) →
      (boot c p).computer.processor = c.processor) ∧
    (run_pass true p { c with memory := c.memory.init }).computer.processor = c.processor ∧
    (∀ (pre post : Program) (instr : Instruction) (c1 : Computer),
      p = pre ++ instr :: post → (∀ i ∈ pre, i.execute_first = true) →
      instr.execute_first = false →
      run_pass true p { c with memory := c.memory.init } = ⟨none, c1⟩ →
      c1.processor = c.processor ∧
      boot c p =
        match instr.execute c1 with
        | ⟨some e, c2⟩ => ⟨some e, c2⟩
        | ⟨none, c2⟩ => run_pass false post c2) := by
  have h1 := run_pass_true_processor p { c with memory := c.memory.init }
  refine ⟨?_, h1, ?_⟩
  · intro h
    unfold boot
    rcases he : run_pass true p { c with memory := c.memory.init } with ⟨_ | e, c1⟩
    · rw [he] at h1
      simp only
      rw [run_pass_processor false p c1 (fun i hi _ => h i hi)]
      exact h1
    · rw [he] at h1
      exact h1
  · intro pre post instr c1 hp hpre hinstr he
    rw [he] at h1
    refine ⟨h1, ?_⟩
    unfold boot
    rw [he]
    simp only
    rw [hp]
    exact run_pass_false_head pre post instr c1 hpre hinstr

/-- C15 at capacity 2: a first `boot` ends with the zero flag set by a `Sub`;
a second `boot` on the machine it left starts with `Onez`, which fires and
writes 1, and the flags after that second `boot` are still those left by the
first. -/
theorem boot_flags_witness :
    (boot (Computer.new 2) [.Data ⟨"a"⟩ 1, .Sub (.Mem (.Lea ⟨"a"⟩)) (.Num 1)]).computer =
      ⟨⟨true, false⟩, ⟨[0, 0], 2, [(⟨"a"⟩, 0)]⟩⟩ ∧
    boot ⟨⟨true, false⟩, ⟨[0, 0], 2, [(⟨"a"⟩, 0)]⟩⟩ [.Onez (.Mem (.Num 1))] =
      ⟨none, ⟨⟨true, false⟩, ⟨[0, 1], 2, []⟩⟩⟩ ∧
    (boot ⟨⟨true, false⟩, ⟨[0, 0], 2, [(⟨"a"⟩, 0)]⟩⟩ [.Onez (.Mem (.Num 1))]).computer.processor =
      ⟨true, false⟩ ∧
    boot (Computer.new 2) [.Onez (.Mem (.Num 1))] =
      ⟨none, ⟨⟨false, false⟩, ⟨[0, 0], 2, []⟩⟩⟩ :=
  ⟨by decide, by decide,
   (boot_flags ⟨⟨true, false⟩, ⟨[0, 0], 2, [(⟨"a"⟩, 0)]⟩⟩ [.Onez (.Mem (.Num 1))]).1
     (by intro instr hi; simp only [List.mem_singleton] at hi; subst hi; rfl),
   by decide⟩

/-! ## C16: evaluation of `Mem` -/

theorem toU64_of_nonneg (x : Int) (h0 : 0 ≤ x) (h1 : x < 2 ^ 63) : toU64 x = x.toNat := by
  unfold toU64
  omega

theorem toU64_of_neg (x : Int) (h0 : x < 0) (h1 : -2 ^ 63 ≤ x) : 2 ^ 63 ≤ toU64 x := by
  unfold toU64
  omega

theorem Mem_execute_eq (c : Computer) (input : RValue) :
    (RValue.Mem input).execute c =
      match (LValue.Mem input).execute c with
      | .error e => .error e
      | .ok r => .ok r.2 := by
  simp only [RValue.execute, LValue.execute]
  cases input.execute c with
  | error e => rfl
  | ok x =>
    simp only
    cases c.memory.read (toU64 x) <;> rfl

theorem execute_length (instr : Instruction) (c : Computer) :
    (instr.execute c).computer.memory.memory.length = c.memory.memory.length ∧
    (instr.execute c).computer.memory.memory_size = c.memory.memory_size := by
  have hmov : ∀ dst src,
      (Mov.execute dst src c).computer.memory.memory.length = c.memory.memory.length ∧
      (Mov.execute dst src c).computer.memory.memory_size = c.memory.memory_size := by
    intro dst src
    rcases Mov_execute_cases dst src c with ⟨e, he, _⟩ | ⟨a, old, v, _, _, he⟩ <;>
      simp [he, written]
  cases instr with
  | Mov dst src => exact hmov dst src
  | Data id num =>
    rcases Data_execute_cases id num c with ⟨_, he⟩ | ⟨_, _, he⟩ | ⟨_, _, he⟩ <;>
      simp [Instruction.execute, he, written]
  | ArithmeticOperation dst val operation =>
    rcases ArithmeticOperation_execute_cases dst val operation c with
      ⟨e, he, _⟩ | ⟨a, old, v, _, _, he⟩ <;>
      simp [Instruction.execute, he, written]
  | Onez dst =>
    simp only [Instruction.execute, Onez.execute]
    split
    · exact hmov dst _
    · exact ⟨rfl, rfl⟩
  | Ones dst =>
    simp only [Instruction.execute, Ones.execute]
    split
    · exact hmov dst _
    · exact ⟨rfl, rfl⟩

theorem run_pass_length (first : Bool) (p : Program) (c : Computer) :
    (run_pass first p c).computer.memory.memory.length = c.memory.memory.length ∧
    (run_pass first p c).computer.memory.memory_size = c.memory.memory_size := by
  induction p generalizing c with
  | nil => exact ⟨rfl, rfl⟩
  | cons instr rest ih =>
    by_cases hf : instr.execute_first = first
    · have hl := execute_length instr c
      rcases he : instr.execute c with ⟨_ | e, c1⟩
      · rw [he] at hl
        simp only [run_pass, hf, if_true, he]
        exact ⟨(ih c1).1.trans hl.1, (ih c1).2.trans hl.2⟩
      · rw [he] at hl
        simp only [run_pass, hf, if_true, he]
        exact hl
    · simp only [run_pass, hf, if_false]
      exact ih c

theorem boot_length (c : Computer) (p : Program) :
    (boot c p).computer.memory.memory.length = c.memory.memory_size ∧
    (boot c p).computer.memory.memory_size = c.memory.memory_size := by
  have h1 := run_pass_length true p { c with memory := c.memory.init }
  have h0 : ({ c with memory := c.memory.init } : Computer).memory.memory.length =
      c.memory.memory_size := by simp [Memory.init]
  have h0s : ({ c with memory := c.memory.init } : Computer).memory.memory_size =
      c.memory.memory_size := rfl
  unfold boot
  rcases he : run_pass true p { c with memory := c.memory.init } with ⟨_ | e, c1⟩
  · rw [he] at h1
    have h2 := run_pass_length false p c1
    exact ⟨h2.1.trans (h1.1.trans h0), h2.2.trans (h1.2.trans h0s)⟩
  · rw [he] at h1
    exact ⟨h1.1.trans h0, h1.2.trans h0s⟩

/-- C16 (amended): in a machine with at most `2 ^ 63` cells, for an `input`
whose value is an `int64_t`: `Mem input` evaluates successfully exactly when
`input` evaluates to some `x` with `0 ≤ x` below the number of cells allocated
(`memory.size()`), and then the resolved address is `x` and the value is the
content of cell `x`; an exception of `input` is passed on; a negative `x`, or
an `x` at or above the number of cells, gives `OutOfRange`. The number of cells
is the capacity once `init` has run: it is so after every `boot`, and `execute`
of an instruction keeps both. -/
theorem mem_execute_spec (c : Computer) (input : RValue)
    (hcap : c.memory.memory.length ≤ 2 ^ 63)
    (hval : ∀ x, input.execute c = .ok x → -2 ^ 63 ≤ x ∧ x < 2 ^ 63) :
    (∀ e, input.execute c = .error e →
      (LValue.Mem input).execute c = .error e ∧ (RValue.Mem input).execute c = .error e) ∧
    (∀ x v, input.execute c = .ok x → 0 ≤ x → c.memory.memory[x.toNat]? = some v →
      (LValue.Mem input).execute c = .ok (x.toNat, v) ∧
      (RValue.Mem input).execute c = .ok v) ∧
    (∀ x, input.execute c = .ok x → 0 ≤ x → x < c.memory.memory.length →
      ∃ v, c.memory.memory[x.toNat]? = some v ∧
        (LValue.Mem input).execute c = .ok (x.toNat, v) ∧
        (RValue.Mem input).execute c = .ok v) ∧
    (∀ x, input.execute c = .ok x → (x < 0 ∨ (c.memory.memory.length : Int) ≤ x) →
      (LValue.Mem input).execute c = .error .OutOfRange ∧
      (RValue.Mem input).execute c = .error .OutOfRange) ∧
    ((∃ r, (LValue.Mem input).execute c = .ok r) ↔
      ∃ x, input.execute c = .ok x ∧ 0 ≤ x ∧ x < c.memory.memory.length) ∧
    ((∃ v, (RValue.Mem input).execute c = .ok v) ↔
      ∃ x, input.execute c = .ok x ∧ 0 ≤ x ∧ x < c.memory.memory.length) ∧
    (c.memory.memory.length = c.memory.memory_size →
      ((∃ r, (LValue.Mem input).execute c = .ok r) ↔
        ∃ x, input.execute c = .ok x ∧ 0 ≤ x ∧ x < c.memory.memory_size) ∧
      ((∃ v, (RValue.Mem input).execute c = .ok v) ↔
        ∃ x, input.execute c = .ok x ∧ 0 ≤ x ∧ x < c.memory.memory_size)) ∧
    (∀ (c0 : Computer) (p : Program),
      (boot c0 p).computer.memory.memory.length = (boot c0 p).computer.memory.memory_size) ∧
    (∀ instr : Instruction,
      (instr.execute c).computer.memory.memory.length = c.memory.memory.length ∧
      (instr.execute c).computer.memory.memory_size = c.memory.memory_size) := by
  have hcell : ∀ x v, input.execute c = .ok x → 0 ≤ x → c.memory.memory[x.toNat]? = some v →
      (LValue.Mem input).execute c = .ok (x.toNat, v) ∧
      (RValue.Mem input).execute c = .ok v := by
    intro x v hx h0 hv
    have hu : toU64 x = x.toNat := toU64_of_nonneg x h0 (hval x hx).2
    obtain ⟨hlt, hget⟩ := List.getElem?_eq_some.1 hv
    have hr : c.memory.read x.toNat = .ok v :=
      (Memory.read_eq_ok_iff _ _ _).2
        ⟨hlt, by rw [List.getD_eq_getElem?_getD, hv]; rfl⟩
    have hl : (LValue.Mem input).execute c = .ok (x.toNat, v) := by
      simp only [LValue.execute, hx, hu, hr]
    refine ⟨hl, ?_⟩
    rw [Mem_execute_eq, hl]
  have hok : ∀ x, input.execute c = .ok x → 0 ≤ x → x < c.memory.memory.length →
      ∃ v, c.memory.memory[x.toNat]? = some v ∧
        (LValue.Mem input).execute c = .ok (x.toNat, v) ∧
        (RValue.Mem input).execute c = .ok v := by
    intro x hx h0 h1
    have hlt : x.toNat < c.memory.memory.length := by omega
    have hv : c.memory.memory[x.toNat]? = some (c.memory.memory[x.toNat]) :=
      List.getElem?_eq_getElem hlt
    exact ⟨_, hv, hcell x _ hx h0 hv⟩
  have hbad : ∀ x, input.execute c = .ok x → (x < 0 ∨ (c.memory.memory.length : Int) ≤ x) →
      (LValue.Mem input).execute c = .error .OutOfRange ∧
      (RValue.Mem input).execute c = .error .OutOfRange := by
    intro x hx hb
    have hlen : c.memory.memory.length ≤ toU64 x := by
      rcases hb with hneg | hge
      · have := toU64_of_neg x hneg (hval x hx).1
        omega
      · have := toU64_of_nonneg x (by omega) (hval x hx).2
        omega
    have hr : c.memory.read (toU64 x) = .error .OutOfRange :=
      (Memory.read_eq_error_iff _ _ _).2 ⟨hlen, rfl⟩
    have hl : (LValue.Mem input).execute c = .error .OutOfRange := by
      simp only [LValue.execute, hx, hr]
    refine ⟨hl, ?_⟩
    rw [Mem_execute_eq, hl]
  have herr : ∀ e, input.execute c = .error e →
      (LValue.Mem input).execute c = .error e ∧ (RValue.Mem input).execute c = .error e := by
    intro e he
    have hl : (LValue.Mem input).execute c = .error e := by
      simp only [LValue.execute, he]
    refine ⟨hl, ?_⟩
    rw [Mem_execute_eq, hl]
  have hiffL : (∃ r, (LValue.Mem input).execute c = .ok r) ↔
      ∃ x, input.execute c = .ok x ∧ 0 ≤ x ∧ x < c.memory.memory.length := by
    constructor
    · rintro ⟨r, hr⟩
      cases hi : input.execute c with
      | error e => rw [(herr e hi).1] at hr; cases hr
      | ok x =>
        by_cases hb : x < 0 ∨ (c.memory.memory.length : Int) ≤ x
        · rw [(hbad x hi hb).1] at hr; cases hr
        · exact ⟨x, rfl, by omega, by omega⟩
    · rintro ⟨x, hx, h0, h1⟩
      obtain ⟨v, _, hl, _⟩ := hok x hx h0 h1
      exact ⟨_, hl⟩
  have hiffR : (∃ v, (RValue.Mem input).execute c = .ok v) ↔
      ∃ x, input.execute c = .ok x ∧ 0 ≤ x ∧ x < c.memory.memory.length := by
    constructor
    · rintro ⟨r, hr⟩
      cases hi : input.execute c with
      | error e => rw [(herr e hi).2] at hr; cases hr
      | ok x =>
        by_cases hb : x < 0 ∨ (c.memory.memory.length : Int) ≤ x
        · rw [(hbad x hi hb).2] at hr; cases hr
        · exact ⟨x, rfl, by omega, by omega⟩
    · rintro ⟨x, hx, h0, h1⟩
      obtain ⟨v, _, _, hr⟩ := hok x hx h0 h1
      exact ⟨_, hr⟩
  refine ⟨herr, hcell, hok, hbad, hiffL, hiffR, ?_, ?_, fun instr => execute_length instr c⟩
  · intro heq
    rw [← heq]
    exact ⟨hiffL, hiffR⟩
  · intro c0 p
    rw [(boot_length c0 p).1, (boot_length c0 p).2]

/-- C16 (amended) on the memory 7, 8 of capacity 2: `Mem (Num 1)` resolves to
address 1 with value 8, the content of cell 1; `Mem (Num (-1))` and
`Mem (Num 2)` throw `OutOfRange`; `Mem (Lea u)` passes on the `UndefinedLabel`
of its input. -/
theorem mem_execute_spec_witness :
    ((LValue.Mem (.Num 1)).execute ⟨⟨false, false⟩, ⟨[7, 8], 2, []⟩⟩ = .ok ((1 : Int).toNat, 8) ∧
      (RValue.Mem (.Num 1)).execute ⟨⟨false, false⟩, ⟨[7, 8], 2, []⟩⟩ = .ok 8) ∧
    ((LValue.Mem (.Num 0)).execute ⟨⟨false, false⟩, ⟨[7, 8], 2, []⟩⟩ = .ok ((0 : Int).toNat, 7) ∧
      (RValue.Mem (.Num 0)).execute ⟨⟨false, false⟩, ⟨[7, 8], 2, []⟩⟩ = .ok 7) ∧
    ((LValue.Mem (.Num (-1))).execute ⟨⟨false, false⟩, ⟨[7, 8], 2, []⟩⟩ = .error .OutOfRange ∧
      (RValue.Mem (.Num (-1))).execute ⟨⟨false, false⟩, ⟨[7, 8], 2, []⟩⟩ = .error .OutOfRange) ∧
    ((LValue.Mem (.Num 2)).execute ⟨⟨false, false⟩, ⟨[7, 8], 2, []⟩⟩ = .error .OutOfRange ∧
      (RValue.Mem (.Num 2)).execute ⟨⟨false, false⟩, ⟨[7, 8], 2, []⟩⟩ = .error .OutOfRange) ∧
    ((LValue.Mem (.Lea ⟨"u"⟩)).execute ⟨⟨false, false⟩, ⟨[7, 8], 2, []⟩⟩ =
        .error .UndefinedLabel ∧
      (RValue.Mem (.Lea ⟨"u"⟩)).execute ⟨⟨false, false⟩, ⟨[7, 8], 2, []⟩⟩ =
        .error .UndefinedLabel) :=
  ⟨(mem_execute_spec ⟨⟨false, false⟩, ⟨[7, 8], 2, []⟩⟩ (.Num 1) (by decide)
      (by intro x h; cases h; decide)).2.1 1 8 rfl (by decide) rfl,
   (mem_execute_spec ⟨⟨false, false⟩, ⟨[7, 8], 2, []⟩⟩ (.Num 0) (by decide)
      (by intro x h; cases h; decide)).2.1 0 7 rfl (by decide) rfl,
   (mem_execute_spec ⟨⟨false, false⟩, ⟨[7, 8], 2, []⟩⟩ (.Num (-1)) (by decide)
      (by intro x h; cases h; decide)).2.2.2.1 (-1) rfl (Or.inl (by decide)),
   (mem_execute_spec ⟨⟨false, false⟩, ⟨[7, 8], 2, []⟩⟩ (.Num 2) (by decide)
      (by intro x h; cases h; decide)).2.2.2.1 2 rfl (Or.inr (by decide)),
   (mem_execute_spec ⟨⟨false, false⟩, ⟨[7, 8], 2, []⟩⟩ (.Lea ⟨"u"⟩) (by decide)
      (by intro x h; cases h)).1 .UndefinedLabel rfl⟩

/-- C16 as stated fails on a machine of capacity 2 that has not booted yet: no
cell is allocated, so `Mem (Num 0)` throws `OutOfRange` although its input
evaluates to 0 and `0 ≤ 0 < 2`. -/
theorem mem_execute_unbooted_counterexample :
    (Computer.new 2).memory.memory_size = 2 ∧
    (RValue.Num 0).execute (Computer.new 2) = .ok 0 ∧
    (0 : Int) ≤ 0 ∧ (0 : Int) < ((Computer.new 2).memory.memory_size : Int) ∧
    (LValue.Mem (.Num 0)).execute (Computer.new 2) = .error .OutOfRange ∧
    (RValue.Mem (.Num 0)).execute (Computer.new 2) = .error .OutOfRange ∧
    ¬ ((∃ r, (LValue.Mem (.Num 0)).execute (Computer.new 2) = .ok r) ↔
      ∃ x, (RValue.Num 0).execute (Computer.new 2) = .ok x ∧ 0 ≤ x ∧
        x < ((Computer.new 2).memory.memory_size : Int)) := by
  refine ⟨rfl, rfl, by decide, by decide, rfl, rfl, ?_⟩
  intro h
  obtain ⟨r, hr⟩ := h.2 ⟨0, rfl, by decide, by decide⟩
  cases hr

/-! ## C17: `dst` is evaluated before `src` -/

/-- C17: if evaluating `dst` throws, `Mov dst src` and every
`ArithmeticOperation dst src _` throw that same exception whatever `src` is;
the exception of `src` is the one thrown when `dst` evaluates successfully and
`src` does not; and no other exception can come out of either instruction. -/
theorem dst_before_src (c : Computer) (dst : LValue) (src : RValue)
    (operation : Int → Int → Int) :
    (∀ e, dst.execute c = .error e →
      (Instruction.Mov dst src).execute c = ⟨some e, c⟩ ∧
      (Instruction.ArithmeticOperation dst src operation).execute c = ⟨some e, c⟩) ∧
    (∀ r e, dst.execute c = .ok r → src.execute c = .error e →
      (Instruction.Mov dst src).execute c = ⟨some e, c⟩ ∧
      (Instruction.ArithmeticOperation dst src operation).execute c = ⟨some e, c⟩) ∧
    (∀ e, ((Instruction.Mov dst src).execute c).error = some e →
      dst.execute c = .error e ∨ ((∃ r, dst.execute c = .ok r) ∧ src.execute c = .error e)) ∧
    (∀ e, ((Instruction.ArithmeticOperation dst src operation).execute c).error = some e →
      dst.execute c = .error e ∨ ((∃ r, dst.execute c = .ok r) ∧ src.execute c = .error e)) := by
  simp only [Instruction.execute]
  refine ⟨?_, ?_, ?_, ?_⟩
  · intro e hd
    constructor
    · rcases Mov_execute_cases dst src c with ⟨e1, he, h1 | ⟨⟨r, h1⟩, _⟩⟩ | ⟨a, old, v, h1, _, _⟩
      · rw [hd] at h1; cases h1; exact he
      · rw [hd] at h1; cases h1
      · rw [hd] at h1; cases h1
    · rcases ArithmeticOperation_execute_cases dst src operation c with
        ⟨e1, he, h1 | ⟨⟨r, h1⟩, _⟩⟩ | ⟨a, old, v, h1, _, _⟩
      · rw [hd] at h1; cases h1; exact he
      · rw [hd] at h1; cases h1
      · rw [hd] at h1; cases h1
  · intro r e hd hs
    constructor
    · rcases Mov_execute_cases dst src c with ⟨e1, he, h1 | ⟨_, h1⟩⟩ | ⟨a, old, v, _, h1, _⟩
      · rw [hd] at h1; cases h1
      · rw [hs] at h1; cases h1; exact he
      · rw [hs] at h1; cases h1
    · rcases ArithmeticOperation_execute_cases dst src operation c with
        ⟨e1, he, h1 | ⟨_, h1⟩⟩ | ⟨a, old, v, _, h1, _⟩
      · rw [hd] at h1; cases h1
      · rw [hs] at h1; cases h1; exact he
      · rw [hs] at h1; cases h1
  · intro e h
    rcases Mov_execute_cases dst src c with ⟨e1, he, h1⟩ | ⟨a, old, v, _, _, he⟩
    · rw [he] at h
      simp only [Option.some.injEq] at h
      subst h
      exact h1
    · rw [he] at h; cases h
  · intro e h
    rcases ArithmeticOperation_execute_cases dst src operation c with
      ⟨e1, he, h1⟩ | ⟨a, old, v, _, _, he⟩
    · rw [he] at h
      simp only [Option.some.injEq] at h
      subst h
      exact h1
    · rw [he] at h; cases h

/-- C17 at capacity 2: `Mov (Mem (Num 2)) (Lea u)` with `u` undefined throws
`OutOfRange`, the exception of `dst`, and so does the `Add`; with `dst` in
range the `UndefinedLabel` of `src` comes out. -/
theorem dst_before_src_witness :
    ((Instruction.Mov (.Mem (.Num 2)) (.Lea ⟨"u"⟩)).execute ⟨⟨false, false⟩, ⟨[7, 8], 2, []⟩⟩ =
        ⟨some .OutOfRange, ⟨⟨false, false⟩, ⟨[7, 8], 2, []⟩⟩⟩ ∧
      (Instruction.ArithmeticOperation (.Mem (.Num 2)) (.Lea ⟨"u"⟩)
          (fun val_1 val_2 => wrap64 (val_1 + val_2))).execute
          ⟨⟨false, false⟩, ⟨[7, 8], 2, []⟩⟩ =
        ⟨some .OutOfRange, ⟨⟨false, false⟩, ⟨[7, 8], 2, []⟩⟩⟩) ∧
    ((Instruction.Mov (.Mem (.Num 1)) (.Lea ⟨"u"⟩)).execute ⟨⟨false, false⟩, ⟨[7, 8], 2, []⟩⟩ =
        ⟨some .UndefinedLabel, ⟨⟨false, false⟩, ⟨[7, 8], 2, []⟩⟩⟩ ∧
      (Instruction.ArithmeticOperation (.Mem (.Num 1)) (.Lea ⟨"u"⟩)
          (fun val_1 val_2 => wrap64 (val_1 + val_2))).execute
          ⟨⟨false, false⟩, ⟨[7, 8], 2, []⟩⟩ =
        ⟨some .UndefinedLabel, ⟨⟨false, false⟩, ⟨[7, 8], 2, []⟩⟩⟩) :=
  ⟨(dst_before_src ⟨⟨false, false⟩, ⟨[7, 8], 2, []⟩⟩ (.Mem (.Num 2)) (.Lea ⟨"u"⟩)
      (fun val_1 val_2 => wrap64 (val_1 + val_2))).1 .OutOfRange rfl,
   (dst_before_src ⟨⟨false, false⟩, ⟨[7, 8], 2, []⟩⟩ (.Mem (.Num 1)) (.Lea ⟨"u"⟩)
      (fun val_1 val_2 => wrap64 (val_1 + val_2))).2.1 (1, 8) .UndefinedLabel rfl rfl⟩

/-! ## C18: a failing instruction changes nothing -/

/-- C18: if `execute` of an instruction (`Mov`, `Data`, `ArithmeticOperation`
and so `Add` and `Sub`, `Onez`, `Ones`) throws, the machine (memory, label
table, flags) is exactly as before. Once `dst` has evaluated to an address,
the read and the write at that address in `Mov` and `ArithmeticOperation`
cannot throw. -/
theorem execute_atomic (instr : Instruction) (c : Computer) :
    (∀ e, (instr.execute c).error = some e → (instr.execute c).computer = c) ∧
    (∀ (dst : LValue) (a : Nat) (old v : Int), dst.execute c = .ok (a, old) →
      c.memory.read a = .ok old ∧ ∃ m1, c.memory.set_value a v = .ok m1) := by
  constructor
  · intro e h
    have hmov : ∀ dst src, (Mov.execute dst src c).error = some e →
        (Mov.execute dst src c).computer = c := by
      intro dst src h1
      rcases Mov_execute_cases dst src c with ⟨e1, he, _⟩ | ⟨a, old, v, _, _, he⟩
      · rw [he]
      · rw [he] at h1; cases h1
    cases instr with
    | Mov dst src => exact hmov dst src h
    | Data id num =>
      simp only [Instruction.execute] at h ⊢
      rcases Data_execute_cases id num c with ⟨_, he⟩ | ⟨_, _, he⟩ | ⟨_, _, he⟩
      · rw [he]
      · rw [he] at h; cases h
      · rw [he] at h; cases h
    | ArithmeticOperation dst val operation =>
      simp only [Instruction.execute] at h ⊢
      rcases ArithmeticOperation_execute_cases dst val operation c with
        ⟨e1, he, _⟩ | ⟨a, old, v, _, _, he⟩
      · rw [he]
      · rw [he] at h; cases h
    | Onez dst =>
      simp only [Instruction.execute, Onez.execute] at h ⊢
      split at h
      · rename_i hz
        simp only [hz, if_true]
        exact hmov dst _ h
      · cases h
    | Ones dst =>
      simp only [Instruction.execute, Ones.execute] at h ⊢
      split at h
      · rename_i hz
        simp only [hz, if_true]
        exact hmov dst _ h
      · cases h
  · intro dst a old v hd
    have ha := LValue.execute_ok hd
    exact ⟨(Memory.read_eq_ok_iff _ _ _).2 ⟨ha.1, ha.2.1⟩, _,
      (Memory.set_value_eq_ok_iff _ _ _ _).2 ⟨ha.1, rfl⟩⟩

/-- C18 at capacity 1: a `Data` on a full table, a `Mov` and a `Sub` with an
out-of-range destination and an `Onez` with an undefined label all throw and
leave the machine as it was. -/
theorem execute_atomic_witness :
    ((Instruction.Data ⟨"b"⟩ 3).execute ⟨⟨true, false⟩, ⟨[7], 1, [(⟨"a"⟩, 0)]⟩⟩).error =
      some .CapacityExceeded ∧
    ((Instruction.Data ⟨"b"⟩ 3).execute ⟨⟨true, false⟩, ⟨[7], 1, [(⟨"a"⟩, 0)]⟩⟩).computer =
      ⟨⟨true, false⟩, ⟨[7], 1, [(⟨"a"⟩, 0)]⟩⟩ ∧
    ((Instruction.Mov (.Mem (.Num 1)) (.Num 5)).execute
      ⟨⟨true, false⟩, ⟨[7], 1, [(⟨"a"⟩, 0)]⟩⟩).computer =
      ⟨⟨true, false⟩, ⟨[7], 1, [(⟨"a"⟩, 0)]⟩⟩ ∧
    ((Instruction.Sub (.Mem (.Num 1)) (.Num 5)).execute
      ⟨⟨true, false⟩, ⟨[7], 1, [(⟨"a"⟩, 0)]⟩⟩).computer =
      ⟨⟨true, false⟩, ⟨[7], 1, [(⟨"a"⟩, 0)]⟩⟩ ∧
    ((Instruction.Onez (.Mem (.Lea ⟨"u"⟩))).execute
      ⟨⟨true, false⟩, ⟨[7], 1, [(⟨"a"⟩, 0)]⟩⟩).computer =
      ⟨⟨true, false⟩, ⟨[7], 1, [(⟨"a"⟩, 0)]⟩⟩ :=
  ⟨rfl,
   (execute_atomic (.Data ⟨"b"⟩ 3) ⟨⟨true, false⟩, ⟨[7], 1, [(⟨"a"⟩, 0)]⟩⟩).1
     .CapacityExceeded rfl,
   (execute_atomic (.Mov (.Mem (.Num 1)) (.Num 5)) ⟨⟨true, false⟩, ⟨[7], 1, [(⟨"a"⟩, 0)]⟩⟩).1
     .OutOfRange rfl,
   (execute_atomic (Instruction.Sub (.Mem (.Num 1)) (.Num 5))
     ⟨⟨true, false⟩, ⟨[7], 1, [(⟨"a"⟩, 0)]⟩⟩).1 .OutOfRange rfl,
   (execute_atomic (.Onez (.Mem (.Lea ⟨"u"⟩))) ⟨⟨true, false⟩, ⟨[7], 1, [(⟨"a"⟩, 0)]⟩⟩).1
     .UndefinedLabel rfl⟩

/-! ## C19: `boot` forgets the previous memory -/

/-- C19: two machines with the same capacity and the same flags, whatever their
cells and label tables, give the same outcome of `boot` on every program: the
same exception, and the same memory, label table and flags afterwards. -/
theorem boot_independent (c1 c2 : Computer) (p : Program)
    (hflags : c1.processor = c2.processor)
    (hcap : c1.memory.memory_size = c2.memory.memory_size) :
    boot c1 p = boot c2 p := by
  have : ({ c1 with memory := c1.memory.init } : Computer) =
      { c2 with memory := c2.memory.init } := by
    simp only [Memory.init, hflags, hcap]
  unfold boot
  rw [this]

/-- C19 at capacity 2: a fresh machine and a used one (other cells, another
label) with the same flags boot a program to the same outcome. -/
theorem boot_independent_witness :
    boot (Computer.new 2) [.Data ⟨"a"⟩ 1, .Mov (.Mem (.Num 1)) (.Mem (.Lea ⟨"a"⟩))] =
      boot ⟨⟨false, false⟩, ⟨[4, 9], 2, [(⟨"z"⟩, 0)]⟩⟩
        [.Data ⟨"a"⟩ 1, .Mov (.Mem (.Num 1)) (.Mem (.Lea ⟨"a"⟩))] ∧
    boot (Computer.new 2) [.Data ⟨"a"⟩ 1, .Mov (.Mem (.Num 1)) (.Mem (.Lea ⟨"a"⟩))] =
      ⟨none, ⟨⟨false, false⟩, ⟨[1, 1], 2, [(⟨"a"⟩, 0)]⟩⟩⟩ :=
  ⟨boot_independent (Computer.new 2) ⟨⟨false, false⟩, ⟨[4, 9], 2, [(⟨"z"⟩, 0)]⟩⟩
      [.Data ⟨"a"⟩ 1, .Mov (.Mem (.Num 1)) (.Mem (.Lea ⟨"a"⟩))] rfl rfl,
   by decide⟩

/-! ## C20: `Add` followed by `Sub` -/

theorem toU64_natCast (a : Nat) (h : a < 2 ^ 64) : toU64 (a : Int) = a := by
  unfold toU64
  omega

theorem wrap64_add_sub (x v : Int) (h1 : -2 ^ 63 ≤ x) (h2 : x < 2 ^ 63) :
    wrap64 (wrap64 (x + v) - v) = x := by
  unfold wrap64
  omega

theorem set_getD_self (l : List Int) (a : Nat) : l.set a (l.getD a 0) = l := by
  induction l generalizing a with
  | nil => rfl
  | cons y ys ih =>
    cases a with
    | zero => rfl
    | succ n => simpa using ih n

theorem Mem_Num_natCast_execute (c : Computer) (a : Nat) (ha : a < c.memory.memory.length)
    (h64 : a < 2 ^ 64) :
    (LValue.Mem (.Num (a : Int))).execute c = .ok (a, c.memory.memory.getD a 0) := by
  have hr : c.memory.read a = .ok (c.memory.memory.getD a 0) :=
    (Memory.read_eq_ok_iff _ _ _).2 ⟨ha, rfl⟩
  simp only [LValue.execute, RValue.execute, toU64_natCast a h64, hr]

theorem arithmetic_at (c : Computer) (a : Nat) (v : Int) (operation : Int → Int → Int)
    (ha : a < c.memory.memory.length) (h64 : a < 2 ^ 64) :
    (Instruction.ArithmeticOperation (.Mem (.Num (a : Int))) (.Num v) operation).execute c =
      ⟨none, { processor :=
                 { zero_flag := decide (operation (c.memory.memory.getD a 0) v = 0),
                   sign_flag := decide (operation (c.memory.memory.getD a 0) v < 0) },
               memory := (written c a (operation (c.memory.memory.getD a 0) v)).memory }⟩ := by
  have hd := Mem_Num_natCast_execute c a ha h64
  simp only [Instruction.execute]
  rcases ArithmeticOperation_execute_cases (.Mem (.Num (a : Int))) (.Num v) operation c with
    ⟨e, _, h1 | ⟨_, h1⟩⟩ | ⟨a1, old, v1, h1, h2, he⟩
  · rw [hd] at h1; cases h1
  · simp [RValue.execute] at h1
  · rw [hd] at h1
    simp only [RValue.execute, Except.ok.injEq, Prod.mk.injEq] at h1 h2
    obtain ⟨rfl, rfl⟩ := h1
    subst h2
    exact he

theorem add_sub_roundtrip (c : Computer) (a : Nat) (v : Int)
    (ha : a < c.memory.memory.length) (h64 : a < 2 ^ 64)
    (hcell : -2 ^ 63 ≤ c.memory.memory.getD a 0 ∧ c.memory.memory.getD a 0 < 2 ^ 63) :
    ∃ c1, (Instruction.Add (.Mem (.Num (a : Int))) (.Num v)).execute c = ⟨none, c1⟩ ∧
      c1.memory.read a = .ok (wrap64 (c.memory.memory.getD a 0 + v)) ∧
      (Instruction.Sub (.Mem (.Num (a : Int))) (.Num v)).execute c1 =
        ⟨none, ⟨⟨decide (c.memory.memory.getD a 0 = 0), decide (c.memory.memory.getD a 0 < 0)⟩,
          c.memory⟩⟩ := by
  have h1 := arithmetic_at c a v (fun val_1 val_2 => wrap64 (val_1 + val_2)) ha h64
  refine ⟨_, h1, ?_, ?_⟩
  · simp only
    rw [read_written]
    simp [ha]
  · have ha1 : a < (written c a (wrap64 (c.memory.memory.getD a 0 + v))).memory.memory.length := by
      simpa [written] using ha
    have hget : (written c a (wrap64 (c.memory.memory.getD a 0 + v))).memory.memory.getD a 0 =
        wrap64 (c.memory.memory.getD a 0 + v) := by
      simp [written, List.getD_eq_getElem?_getD, List.getElem?_set, ha]
    have h2 := arithmetic_at
      ⟨⟨decide (wrap64 (c.memory.memory.getD a 0 + v) = 0),
        decide (wrap64 (c.memory.memory.getD a 0 + v) < 0)⟩,
       (written c a (wrap64 (c.memory.memory.getD a 0 + v))).memory⟩
      a v (fun val_1 val_2 => wrap64 (val_1 - val_2)) ha1 h64
    simp only [hget, wrap64_add_sub _ v hcell.1 hcell.2] at h2
    rw [Instruction.Sub, h2]
    simp only [written, List.set_set, set_getD_self]

/-- C20: for an address `a` in range and a cell `a` holding an `int64_t`,
`Add (Mem (Num a)) (Num v)` followed by `Sub (Mem (Num a)) (Num v)` both
succeed and leave the memory (cells and label table) exactly as it was, also
when the sum wraps around; afterwards the zero flag tells whether the original
cell was 0 and the sign flag whether it was negative. The same holds for
`inc` followed by `dec`. -/
theorem add_then_sub (c : Computer) (a : Nat) (v : Int)
    (ha : a < c.memory.memory.length) (h64 : a < 2 ^ 64)
    (hcell : -2 ^ 63 ≤ c.memory.memory.getD a 0 ∧ c.memory.memory.getD a 0 < 2 ^ 63) :
    (∃ c1, (Instruction.Add (.Mem (.Num (a : Int))) (.Num v)).execute c = ⟨none, c1⟩ ∧
      c1.memory.read a = .ok (wrap64 (c.memory.memory.getD a 0 + v)) ∧
      (Instruction.Sub (.Mem (.Num (a : Int))) (.Num v)).execute c1 =
        ⟨none, ⟨⟨decide (c.memory.memory.getD a 0 = 0), decide (c.memory.memory.getD a 0 < 0)⟩,
          c.memory⟩⟩) ∧
    run_pass false [Instruction.Add (.Mem (.Num (a : Int))) (.Num v),
        Instruction.Sub (.Mem (.Num (a : Int))) (.Num v)] c =
      ⟨none, ⟨⟨decide (c.memory.memory.getD a 0 = 0), decide (c.memory.memory.getD a 0 < 0)⟩,
        c.memory⟩⟩ ∧
    run_pass false [inc (.Mem (.Num (a : Int))), dec (.Mem (.Num (a : Int)))] c =
      ⟨none, ⟨⟨decide (c.memory.memory.getD a 0 = 0), decide (c.memory.memory.getD a 0 < 0)⟩,
        c.memory⟩⟩ := by
  have hrun : ∀ w : Int,
      run_pass false [Instruction.Add (.Mem (.Num (a : Int))) (.Num w),
          Instruction.Sub (.Mem (.Num (a : Int))) (.Num w)] c =
        ⟨none, ⟨⟨decide (c.memory.memory.getD a 0 = 0), decide (c.memory.memory.getD a 0 < 0)⟩,
          c.memory⟩⟩ := by
    intro w
    obtain ⟨c1, h1, -, h2⟩ := add_sub_roundtrip c a w ha h64 hcell
    have hf1 : (Instruction.Add (.Mem (.Num (a : Int))) (.Num w)).execute_first = false := rfl
    have hf2 : (Instruction.Sub (.Mem (.Num (a : Int))) (.Num w)).execute_first = false := rfl
    simp only [run_pass, hf1, hf2, if_true, h1, h2]
  exact ⟨add_sub_roundtrip c a v ha h64 hcell, hrun v, hrun 1⟩

/-- C20 on a cell holding `2 ^ 63 - 1` (the sum wraps to `-2 ^ 63`) and on
`inc` then `dec` of a cell holding 0. -/
theorem add_then_sub_witness :
    run_pass false [Instruction.Add (.Mem (.Num 1)) (.Num 1),
        Instruction.Sub (.Mem (.Num 1)) (.Num 1)]
        ⟨⟨true, false⟩, ⟨[0, 2 ^ 63 - 1], 2, []⟩⟩ =
      ⟨none, ⟨⟨false, false⟩, ⟨[0, 2 ^ 63 - 1], 2, []⟩⟩⟩ ∧
    (Instruction.Add (.Mem (.Num 1)) (.Num 1)).execute
        ⟨⟨true, false⟩, ⟨[0, 2 ^ 63 - 1], 2, []⟩⟩ =
      ⟨none, ⟨⟨false, true⟩, ⟨[0, -2 ^ 63], 2, []⟩⟩⟩ ∧
    run_pass false [inc (.Mem (.Num 0)), dec (.Mem (.Num 0))]
        ⟨⟨false, true⟩, ⟨[0, 5], 2, []⟩⟩ =
      ⟨none, ⟨⟨true, false⟩, ⟨[0, 5], 2, []⟩⟩⟩ :=
  ⟨(add_then_sub ⟨⟨true, false⟩, ⟨[0, 2 ^ 63 - 1], 2, []⟩⟩ 1 1 (by decide) (by decide)
      (by decide)).2.1,
   by decide,
   (add_then_sub ⟨⟨false, true⟩, ⟨[0, 5], 2, []⟩⟩ 0 7 (by decide) (by decide)
      (by decide)).2.2⟩

end Computer
